import Mathlib

/-!
# Octant view components: links, tables, row ordering and the tagged envelope

A shallow embedding of `pkg/view/component/link.go` and
`pkg/view/component/table.go`.

* Go strings are Lean strings; the Go comparison `<` on strings is the
  lexicographic comparison of their characters (on valid UTF-8 the byte order
  used by Go and the code point order used here agree).
* A slice is a `List`; a slice that is mutated in place through indices is
  threaded through the functions as a value. Where the nil slice behaves
  differently from an empty one, in the fields of `TableConfig` that
  `json.Marshal` encodes, a flag next to the list records that the slice is nil.
* A Go `map[string]V` is an association list `List (String × V)`, read in the
  order in which `range` visits it.
* A runtime panic is the error case of `Except Panic`.
* JSON text is represented by the JSON value it denotes; `json.Marshal` writes
  `null` for a nil slice and the entries of a map sorted by key.
-/

/-- Runtime panics of the Go runtime that the modelled code can raise. -/
inductive Panic where
  | nilDereference
  | indexOutOfRange
deriving DecidableEq, Repr

/-! ## Package `sort` of the Go standard library

`TableRows.Sort` calls `sort.Slice`. The library is not part of the
repository; the functions below follow the implementation shipped with the Go
toolchains the repository was written for (Go 1.8, which introduced
`sort.Slice`, up to Go 1.18; file `sort/zfuncversion.go`): quicksort with a
median-of-three pivot, heapsort once the recursion budget `maxDepth` is used
up, and for at most twelve remaining elements one Shell pass with gap six
followed by insertion sort.

`data.Less(i, j)` and `data.Swap(i, j)` act on the current contents of the
slice, which is passed along explicitly.
-/
namespace sort

variable {α : Type}

/-- Method `data.Less(i, j)`: the caller's comparison applied to the current elements at `i`, `j`. -/
def Less (less : α → α → Except Panic Bool) (data : List α) (i j : Nat) : Except Panic Bool :=
  match data[i]?, data[j]? with
  | some x, some y => less x y
  | _, _ => .error .indexOutOfRange

/-- Method `data.Swap(i, j)`: exchange the elements at `i` and `j`. -/
def Swap (data : List α) (i j : Nat) : Except Panic (List α) :=
  match data[i]?, data[j]? with
  | some x, some y => .ok ((data.set i y).set j x)
  | _, _ => .error .indexOutOfRange

/-- Inner loop of `insertionSort_func`:
`for j := i; j > a && data.Less(j, j-1); j-- { data.Swap(j, j-1) }`. -/
def insertionInner (less : α → α → Except Panic Bool) (a : Nat) :
    Nat → List α → Except Panic (List α)
  | 0, data => .ok data
  | j + 1, data =>
    if a < j + 1 then do
      if (← Less less data (j + 1) j) then
        let data ← Swap data (j + 1) j
        insertionInner less a j data
      else
        .ok data
    else
      .ok data

/-- Outer loop of `insertionSort_func`: `for i := ...; i < b; i++`, with `n` the
number of values of `i` still to visit. -/
def insertionOuter (less : α → α → Except Panic Bool) (a : Nat) :
    Nat → Nat → List α → Except Panic (List α)
  | 0, _, data => .ok data
  | n + 1, i, data => do
    let data ← insertionInner less a i data
    insertionOuter less a n (i + 1) data

/-- Function `insertionSort_func(data, a, b)` sorts `data[a:b]` by insertion. -/
def insertionSort_func (less : α → α → Except Panic Bool) (data : List α) (a b : Nat) :
    Except Panic (List α) :=
  insertionOuter less a (b - (a + 1)) (a + 1) data

/-- Loop of `siftDown_func`; `fuel` bounds the number of levels still below `root`. -/
def siftDownLoop (less : α → α → Except Panic Bool) (hi first : Nat) :
    Nat → Nat → List α → Except Panic (List α)
  | 0, _, data => .ok data
  | fuel + 1, root, data =>
    let child := 2 * root + 1
    if hi ≤ child then
      .ok data
    else do
      let right ←
        if child + 1 < hi then Less less data (first + child) (first + child + 1)
        else pure false
      let child := if right then child + 1 else child
      if !(← Less less data (first + root) (first + child)) then
        .ok data
      else
        let data ← Swap data (first + root) (first + child)
        siftDownLoop less hi first fuel child data

/-- Function `siftDown_func(data, lo, hi, first)` restores the heap property on
`data[first+lo : first+hi]` below `lo`. -/
def siftDown_func (less : α → α → Except Panic Bool) (data : List α) (lo hi first : Nat) :
    Except Panic (List α) :=
  siftDownLoop less hi first (hi - lo) lo data

/-- First loop of `heapSort_func`: `for i := (hi-1)/2; i >= 0; i--`, visiting
`i = n-1, ..., 0`. -/
def heapifyLoop (less : α → α → Except Panic Bool) (hi first : Nat) :
    Nat → List α → Except Panic (List α)
  | 0, data => .ok data
  | i + 1, data => do
    let data ← siftDown_func less data i hi first
    heapifyLoop less hi first i data

/-- Second loop of `heapSort_func`: `for i := hi-1; i >= 0; i--`, visiting
`i = n-1, ..., 0`. -/
def popLoop (less : α → α → Except Panic Bool) (first : Nat) :
    Nat → List α → Except Panic (List α)
  | 0, data => .ok data
  | i + 1, data => do
    let data ← Swap data first (first + i)
    let data ← siftDown_func less data 0 i first
    popLoop less first i data

/-- Function `heapSort_func(data, a, b)`: build the heap, then pop the
elements in reverse order. -/
def heapSort_func (less : α → α → Except Panic Bool) (data : List α) (a b : Nat) :
    Except Panic (List α) := do
  let first := a
  let hi := b - a
  let data ← heapifyLoop less hi first ((hi - 1) / 2 + 1) data
  popLoop less first hi data

/-- Function `medianOfThree_func(data, m1, m0, m2)` moves the median of the three
elements to `m1`. -/
def medianOfThree_func (less : α → α → Except Panic Bool) (data : List α) (m1 m0 m2 : Nat) :
    Except Panic (List α) := do
  let data ← if (← Less less data m1 m0) then Swap data m1 m0 else pure data
  if (← Less less data m2 m1) then
    let data ← Swap data m2 m1
    if (← Less less data m1 m0) then Swap data m1 m0 else pure data
  else
    pure data

/-- Loop `for ; a < c && data.Less(a, pivot); a++ {}`; returns the final `a`. -/
def scanLess (less : α → α → Except Panic Bool) (data : List α) (pivot c : Nat) :
    Nat → Nat → Except Panic Nat
  | 0, a => .ok a
  | fuel + 1, a =>
    if a < c then do
      if (← Less less data a pivot) then scanLess less data pivot c fuel (a + 1)
      else .ok a
    else .ok a

/-- Loop `for ; b < c && !data.Less(pivot, b); b++ {}`; returns the final `b`. -/
def scanNotGreater (less : α → α → Except Panic Bool) (data : List α) (pivot c : Nat) :
    Nat → Nat → Except Panic Nat
  | 0, b => .ok b
  | fuel + 1, b =>
    if b < c then do
      if !(← Less less data pivot b) then scanNotGreater less data pivot c fuel (b + 1)
      else .ok b
    else .ok b

/-- Loop `for ; b < c && data.Less(pivot, c-1); c-- {}`; returns the final `c`. -/
def scanGreaterDown (less : α → α → Except Panic Bool) (data : List α) (pivot b : Nat) :
    Nat → Nat → Except Panic Nat
  | 0, c => .ok c
  | fuel + 1, c =>
    if b < c then do
      if (← Less less data pivot (c - 1)) then scanGreaterDown less data pivot b fuel (c - 1)
      else .ok c
    else .ok c

/-- Loop `for ; a < b && !data.Less(b-1, pivot); b-- {}`; returns the final `b`. -/
def scanNotLessDown (less : α → α → Except Panic Bool) (data : List α) (pivot a : Nat) :
    Nat → Nat → Except Panic Nat
  | 0, b => .ok b
  | fuel + 1, b =>
    if a < b then do
      if !(← Less less data (b - 1) pivot) then scanNotLessDown less data pivot a fuel (b - 1)
      else .ok b
    else .ok b

/-- Main partition loop of `doPivot_func`; returns the slice and the final `b`, `c`. -/
def partitionLoop (less : α → α → Except Panic Bool) (pivot : Nat) :
    Nat → List α → Nat → Nat → Except Panic (List α × Nat × Nat)
  | 0, data, b, c => .ok (data, b, c)
  | fuel + 1, data, b, c => do
    let b ← scanNotGreater less data pivot c (c - b) b
    let c ← scanGreaterDown less data pivot b (c - b) c
    if c ≤ b then
      .ok (data, b, c)
    else
      let data ← Swap data b (c - 1)
      partitionLoop less pivot fuel data (b + 1) (c - 1)

/-- Loop of `doPivot_func` that protects against many duplicates; returns the
slice and the final `a`, `b`. -/
def protectLoop (less : α → α → Except Panic Bool) (pivot : Nat) :
    Nat → List α → Nat → Nat → Except Panic (List α × Nat × Nat)
  | 0, data, a, b => .ok (data, a, b)
  | fuel + 1, data, a, b => do
    let b ← scanNotLessDown less data pivot a (b - a) b
    let a ← scanLess less data pivot b (b - a) a
    if b ≤ a then
      .ok (data, a, b)
    else
      let data ← Swap data a (b - 1)
      protectLoop less pivot fuel data (a + 1) (b - 1)

/-- First part of `doPivot_func`: the median of three (for more than forty
elements Tukey's ninther, the median of three medians of three) is moved to
`data[lo]`. -/
def pivotMedians (less : α → α → Except Panic Bool) (data : List α) (lo hi : Nat) :
    Except Panic (List α) := do
  let m := (lo + hi) / 2
  let data ←
    if 40 < hi - lo then do
      let s := (hi - lo) / 8
      let data ← medianOfThree_func less data lo (lo + s) (lo + 2 * s)
      let data ← medianOfThree_func less data m (m - s) (m + s)
      medianOfThree_func less data (hi - 1) (hi - 1 - s) (hi - 1 - 2 * s)
    else pure data
  medianOfThree_func less data lo m (hi - 1)

/-- The block of `doPivot_func` guarded by `!protect && hi-c < (hi-lo)/4`: test
three points for equality to the pivot; returns the slice, `b`, `c` and
`dups > 1`. -/
def pivotDups (less : α → α → Except Panic Bool) (data : List α) (lo hi b c : Nat) :
    Except Panic (List α × Nat × Nat × Bool) := do
  let m := (lo + hi) / 2
  let pivot := lo
  let dups := 0
  let (data, c, dups) ←
    if !(← Less less data pivot (hi - 1)) then do
      let data ← Swap data c (hi - 1)
      pure (data, c + 1, dups + 1)
    else pure (data, c, dups)
  let (b, dups) ←
    if !(← Less less data (b - 1) pivot) then pure (b - 1, dups + 1)
    else pure (b, dups)
  let (data, b, dups) ←
    if !(← Less less data m pivot) then do
      let data ← Swap data m (b - 1)
      pure (data, b - 1, dups + 1)
    else pure (data, b, dups)
  pure (data, b, c, decide (1 < dups))

/-- Function `doPivot_func(data, lo, hi)`: returns the slice and `(midlo, midhi)`. -/
def doPivot_func (less : α → α → Except Panic Bool) (data : List α) (lo hi : Nat) :
    Except Panic (List α × Nat × Nat) := do
  let data ← pivotMedians less data lo hi
  let pivot := lo
  let a := lo + 1
  let c := hi - 1
  let a ← scanLess less data pivot c (c - a) a
  let b := a
  let (data, b, c) ← partitionLoop less pivot (c - b + 1) data b c
  let protect := decide (hi - c < 5)
  let (data, b, c, protect) ←
    if !protect && decide (hi - c < (hi - lo) / 4) then pivotDups less data lo hi b c
    else pure (data, b, c, protect)
  let (data, b) ←
    if protect then do
      let (data, _, b) ← protectLoop less pivot (b - a + 1) data a b
      pure (data, b)
    else pure (data, b)
  let data ← Swap data pivot (b - 1)
  pure (data, b - 1, c)

/-- Final stage of `quickSort_func`, reached with at most twelve elements:
the Shell pass `for i := a + 6; i < b; i++`, with `n` values of `i` to visit. -/
def shellPass (less : α → α → Except Panic Bool) :
    Nat → Nat → List α → Except Panic (List α)
  | 0, _, data => .ok data
  | n + 1, i, data => do
    let data ← if (← Less less data i (i - 6)) then Swap data i (i - 6) else pure data
    shellPass less n (i + 1) data

/-- Function `quickSort_func(data, a, b, maxDepth)`. The `for b-a > 12` loop continues
with the budget it has just decremented, as does the recursive call. -/
def quickSort_func (less : α → α → Except Panic Bool) :
    Nat → List α → Nat → Nat → Except Panic (List α)
  | maxDepth, data, a, b =>
    if 12 < b - a then
      match maxDepth with
      | 0 => heapSort_func less data a b
      | maxDepth + 1 => do
        let (data, mlo, mhi) ← doPivot_func less data a b
        if mlo - a < b - mhi then
          let data ← quickSort_func less maxDepth data a mlo
          quickSort_func less maxDepth data mhi b
        else
          let data ← quickSort_func less maxDepth data mhi b
          quickSort_func less maxDepth data a mlo
    else if 1 < b - a then do
      let data ← shellPass less (b - (a + 6)) (a + 6) data
      insertionSort_func less data a b
    else
      .ok data

/-- Loop of `maxDepth`: `for i := n; i > 0; i >>= 1 { depth++ }`. -/
def maxDepthLoop : Nat → Nat → Nat → Nat
  | 0, _, depth => depth
  | fuel + 1, i, depth => if 0 < i then maxDepthLoop fuel (i / 2) (depth + 1) else depth

/-- Function `maxDepth(n)` is `2*ceil(lg(n+1))`. -/
def maxDepth (n : Nat) : Nat :=
  maxDepthLoop n n 0 * 2

/-- Function `sort.Slice(slice, less)`: quicksort on the whole slice with the
recursion budget `maxDepth(length)`. -/
def Slice (less : α → α → Except Panic Bool) (slice : List α) : Except Panic (List α) :=
  quickSort_func less (maxDepth slice.length) slice 0 slice.length

end sort

/-! ## Package `component` -/
namespace component

/-- A JSON value; the byte strings produced by `json.Marshal` and consumed by
`json.Unmarshal` are represented by the value they denote. The members of an
object are listed in the order in which they were written. -/
inductive Json where
  | null
  | bool (b : Bool)
  | num (n : Int)
  | str (s : String)
  | arr (xs : List Json)
  | obj (kvs : List (String × Json))

/-- Modelled from the spec: the struct `Metadata` is declared outside the two
files. It carries the type tag and the optional title, an ordered sequence of
inline components, each kept as the JSON value it encodes to. `Typ` is the Go
field `Type`. -/
structure Metadata where
  Typ : String
  Title : List Json

/-- Modelled from the spec: the struct `base` embedded in every variant is
declared outside the two files; it holds the component's `Metadata`. -/
structure base where
  Metadata : Metadata

/-- Declarations of package `component` that `link.go` and `table.go` use but
do not contain: the canonical tags, the title helper and the textual
projection that `base` supplies to a variant without a `String` method of its
own. They are parameters of the development. -/
structure Env where
  typeLink : String
  typeTable : String
  TitleFromString : String → List Json
  baseString : base → String

/-- Modelled from the spec: `newBase(typ, title)` is declared outside the two
files; it populates `Metadata.Type` with the tag and stores the title. -/
def newBase (typ : String) (title : List Json) : base :=
  { Metadata := { Typ := typ, Title := title } }

/-- Modelled from the spec: the wire form of `Metadata`, an object with the
members `type` and `title`. -/
def Metadata.toJson (m : Metadata) : Json :=
  .obj [("type", .str m.Typ), ("title", .arr m.Title)]

/-- The interface `Component`: a value of the interface is given by what its
methods return, `GetMetadata()`, `String()` and (through `json.Marshaler`)
`MarshalJSON()`. -/
structure Component where
  GetMetadata : Metadata
  MarshalJSON : Json
  String : String

/-! ### link.go -/

/-- Type `LinkConfig` is the contents of `Link`. -/
structure LinkConfig where
  Text : String
  Ref : String

/-- Type `Link` is a text component that contains a link. -/
structure Link extends base where
  Config : LinkConfig

/-- Function `NewLink` creates a link component. -/
def NewLink (P : Env) (title s ref : String) : Link :=
  { tobase := newBase P.typeLink (P.TitleFromString title)
    Config := { Text := s, Ref := ref } }

/-- Method `GetMetadata` accesses the component's metadata. -/
def Link.GetMetadata (t : Link) : Metadata :=
  t.Metadata

/-- Result of `json.Marshal` on a value of type `linkMarshal`: the members `metadata`
and `config`, the latter with `value` and `ref`. -/
def linkMarshal.json (m : Link) : Json :=
  .obj [("metadata", m.Metadata.toJson),
        ("config", .obj [("value", .str m.Config.Text), ("ref", .str m.Config.Ref)])]

/-- Method `Link.MarshalJSON`: copy the receiver, overwrite the tag of the copy,
marshal the copy. -/
def Link.MarshalJSON (P : Env) (t : Link) : Json :=
  let m : Link := t
  let m : Link := { m with Metadata := { m.Metadata with Typ := P.typeLink } }
  linkMarshal.json m

/-- Method `String` returns the link's text. -/
def Link.String (t : Link) : String :=
  t.Config.Text

/-- A `*Link` as a value of the interface `Component`. -/
def Link.toComponent (P : Env) (t : Link) : Component :=
  { GetMetadata := t.GetMetadata
    MarshalJSON := t.MarshalJSON P
    String := t.String }

/-! ### table.go -/

/-- Type `TableCol` describes a column from a table. -/
structure TableCol where
  Name : String
  Accessor : String
deriving DecidableEq

/-- Type `TableRow` is a row in a table, `map[string]Component`. -/
abbrev TableRow := List (String × Component)

/-- Type `TableRows` are multiple rows. -/
abbrev TableRows := List TableRow

/-- Type `TableConfig` is the contents of a `Table`. `Columns` and `Rows` are Go
slices: the list holds the elements, and `nilColumns`, `nilRows` tell whether
the slice is the nil slice, which has no elements and which `json.Marshal`
writes differently from an empty slice. -/
structure TableConfig where
  Columns : List TableCol
  Rows : TableRows
  EmptyContent : String
  nilColumns : Bool
  nilRows : Bool

/-- Type `Table` contains other Components. -/
structure Table extends base where
  Config : TableConfig

/-- The map index expression `row[name]`: the cell, or the nil interface value
when the key is absent. -/
def TableRow.index (row : TableRow) (name : String) : Option Component :=
  row.lookup name

/-- The map assignment `m[k] = v`: replace the entry of `k`, or add one. -/
def mapAssign {V : Type} (m : List (String × V)) (k : String) (v : V) : List (String × V) :=
  if m.any (fun kv => kv.1 == k) then
    m.map (fun kv => if kv.1 == k then (k, v) else kv)
  else
    m ++ [(k, v)]

/-- The map assignment `row[k] = v`. -/
def TableRow.assign (row : TableRow) (k : String) (v : Component) : TableRow :=
  mapAssign row k v

/-- The Go comparison `a < b` of two strings: lexicographic on their characters. -/
def stringLess (a b : String) : Bool :=
  decide (a.data < b.data)

/-- The method call `c.String()` on an interface value; calling it on the nil
interface value panics. -/
def callString : Option Component → Except Panic String
  | none => .error .nilDereference
  | some c => .ok c.String

/-- The closure passed to `sort.Slice` by `TableRows.Sort`, applied to the rows
currently at the two indices. -/
def TableRows.less (name : String) (ti tj : TableRow) : Except Panic Bool := do
  let a := ti.index name
  let b := tj.index name
  let sa ← callString a
  let sb ← callString b
  pure (stringLess sa sb)

/-- Method `TableRows.Sort(name)`: the rows after the in-place sort together with the
returned `error` (always nil), or the panic that ended the call. -/
def TableRows.Sort (t : TableRows) (name : String) : Except Panic (TableRows × Option String) := do
  let t ← sort.Slice (TableRows.less name) t
  pure (t, none)

/-- Body of the loop `for k, v := range x` of `TableRow.UnmarshalJSON`; `x` is
listed in the order in which `range` visits it. Returns the receiver and the
returned error. -/
def TableRow.unmarshalRange {TypedObject ε : Type}
    (ToComponent : TypedObject → Except ε Component) :
    List (String × TypedObject) → TableRow → TableRow × Option ε
  | [], t => (t, none)
  | (k, v) :: rest, t =>
    match ToComponent v with
    | .error err => (t, some err)
    | .ok vc => TableRow.unmarshalRange ToComponent rest (t.assign k vc)

/-- Method `TableRow.UnmarshalJSON(data)`. `jsonUnmarshal` is `json.Unmarshal` into a
`map[string]TypedObject` and `ToComponent` is `TypedObject.ToComponent`, both
declared outside the two files. The first argument is the receiver before the
call; the result is the receiver after the call and the returned error. -/
def TableRow.UnmarshalJSON {Data TypedObject ε : Type}
    (jsonUnmarshal : Data → Except ε (List (String × TypedObject)))
    (ToComponent : TypedObject → Except ε Component)
    (_t : TableRow) (data : Data) : TableRow × Option ε :=
  let t : TableRow := []
  match jsonUnmarshal data with
  | .error err => (t, some err)
  | .ok x => TableRow.unmarshalRange ToComponent x t

/-- Function `NewTable` creates a table component. The fields `Rows` and
`EmptyContent` are left at their zero values, so `Rows` is the nil slice; an
argument `cols` without elements stands for the nil slice, which is what
`NewTableCols` returns when it is given no keys (the table built from an empty
slice that is not nil is this one with `nilColumns := false`). -/
def NewTable (P : Env) (title : String) (cols : List TableCol) : Table :=
  { tobase := newBase P.typeTable (P.TitleFromString title)
    Config := { Columns := cols, nilColumns := cols.isEmpty
                Rows := [], nilRows := true
                EmptyContent := "" } }

/-- Method `IsEmpty`: `len(t.Config.Rows) < 1`. -/
def Table.IsEmpty (t : Table) : Bool :=
  decide (t.Config.Rows.length < 1)

/-- Method `Add` adds additional items to the tail of the table:
`t.Config.Rows = append(t.Config.Rows, rows...)`, which leaves a nil slice nil
when there is nothing to append. -/
def Table.Add (t : Table) (rows : List TableRow) : Table :=
  { t with Config := { t.Config with
      Rows := t.Config.Rows ++ rows
      nilRows := t.Config.nilRows && rows.isEmpty } }

/-- Method `AddColumn` adds a column to the table; the slice is not nil
afterwards. -/
def Table.AddColumn (t : Table) (name : String) : Table :=
  { t with Config := { t.Config with
      Columns := t.Config.Columns ++ [{ Name := name, Accessor := name }]
      nilColumns := false } }

/-- Function `NewTableWithRows` creates a table with rows. -/
def NewTableWithRows (P : Env) (title : String) (cols : List TableCol) (rows : List TableRow) :
    Table :=
  let table := NewTable P title cols
  let table := table.Add rows
  table

/-- Loop of `NewTableCols`: `for i, k := range keys { cols[i].Name = k; cols[i].Accessor = k }`. -/
def NewTableCols.fill : List String → Nat → List TableCol → List TableCol
  | [], _, cols => cols
  | k :: keys, i, cols =>
    let cols := cols.modify (fun c => { c with Name := k }) i
    let cols := cols.modify (fun c => { c with Accessor := k }) i
    NewTableCols.fill keys (i + 1) cols

/-- Function `NewTableCols` returns a slice of table columns, each with name/accessor
set according to the provided keys arguments. -/
def NewTableCols (keys : List String) : List TableCol :=
  if keys.length = 0 then
    []
  else
    let cols := List.replicate keys.length ({ Name := "", Accessor := "" } : TableCol)
    NewTableCols.fill keys 0 cols

/-- Result of `json.Marshal` on a `TableCol`. -/
def TableCol.json (c : TableCol) : Json :=
  .obj [("name", .str c.Name), ("accessor", .str c.Accessor)]

/-- The entries of a map in the order in which `json.Marshal` writes them:
sorted by key. -/
def TableRow.sorted (row : TableRow) : TableRow :=
  row.insertionSort (fun a b => stringLess b.1 a.1 = false)

/-- Result of `json.Marshal` on a `TableRow`: an object with the entries of the
map sorted by key, every cell encoded by its own `MarshalJSON`. A `TableRow` of
the model is a map that is not nil. -/
def TableRow.json (row : TableRow) : Json :=
  .obj (row.sorted.map (fun kv => (kv.1, kv.2.MarshalJSON)))

/-- Result of `json.Marshal` on a slice: `null` for the nil slice, otherwise the
array of the encoded elements. -/
def sliceJson (isNil : Bool) (elems : List Json) : Json :=
  if isNil then .null else .arr elems

/-- Result of `json.Marshal` on a value of type `tableMarshal`: the members `metadata`
and `config`, the latter with `columns`, `rows` and `emptyContent`; none of the
three has the option `omitempty`, so a nil slice is written as `null`. -/
def tableMarshal.json (m : Table) : Json :=
  .obj [("metadata", m.Metadata.toJson),
        ("config", .obj [("columns", sliceJson m.Config.nilColumns
                                       (m.Config.Columns.map TableCol.json)),
                         ("rows", sliceJson m.Config.nilRows
                                    (m.Config.Rows.map TableRow.json)),
                         ("emptyContent", .str m.Config.EmptyContent)])]

/-- Method `Table.MarshalJSON`: copy the receiver, overwrite the tag of the copy,
marshal the copy. -/
def Table.MarshalJSON (P : Env) (t : Table) : Json :=
  let m : Table := t
  let m : Table := { m with Metadata := { m.Metadata with Typ := P.typeTable } }
  tableMarshal.json m

/-- A `*Table` as a value of the interface `Component`; `GetMetadata` and
`String` are the methods promoted from the embedded `base`. -/
def Table.toComponent (P : Env) (t : Table) : Component :=
  { GetMetadata := t.Metadata
    MarshalJSON := t.MarshalJSON P
    String := P.baseString t.tobase }

/-! ### The decode path

`TypedObject`, `ToComponent` and the registry of decoders are declared outside
the two files; they are modelled from sections 4.4, 6 and 7 of the
specification.
-/

/-- Modelled from the spec: the error kinds of the decode path (section 7);
`TypedObject`'s errors are declared outside the two files. -/
inductive DecodeError where
  | UnknownVariant (tag : String)
  | MalformedPayload
  | NestedDecodeFailure (accessor : String) (cause : DecodeError)
deriving DecidableEq

/-- Modelled from the spec: `TypedObject`, the untyped envelope with the
metadata (exposing the type tag) and the raw variant-specific payload; it is
declared outside the two files. -/
structure TypedObject where
  Config : Json
  Metadata : Metadata

/-- Modelled from the spec: step 1 of decode, parse a JSON value as an untyped
envelope exposing at least a `type` member; `json.Unmarshal` into a
`TypedObject` is declared outside the two files. -/
def parseTypedObject : Json → Except DecodeError TypedObject
  | .obj kvs =>
    match kvs.lookup "metadata" with
    | some (.obj m) =>
      match m.lookup "type" with
      | some (.str tag) =>
        .ok { Metadata := { Typ := tag
                            Title := match m.lookup "title" with
                                     | some (.arr ts) => ts
                                     | _ => [] }
              Config := (kvs.lookup "config").getD .null }
      | _ => .error .MalformedPayload
    | _ => .error .MalformedPayload
  | _ => .error .MalformedPayload

/-- Modelled from the spec: the members of a JSON object decoded into a
`map[string]TypedObject`, a later member replacing an earlier one with the same
key. -/
def unmarshalMembers :
    List (String × Json) → List (String × TypedObject) →
      Except DecodeError (List (String × TypedObject))
  | [], x => .ok x
  | (k, j) :: rest, x => do
    let v ← parseTypedObject j
    unmarshalMembers rest (mapAssign x k v)

/-- Modelled from the spec: `json.Unmarshal(data, &x)` for `x` of type
`map[string]TypedObject`, decoding an untyped mapping from accessor to raw
envelope. The value `null` decodes without an error and leaves no entries. -/
def unmarshalTypedObjects : Json → Except DecodeError (List (String × TypedObject))
  | .obj kvs => unmarshalMembers kvs []
  | .null => .ok []
  | _ => .error .MalformedPayload

/-- Modelled from the spec: the payload of a table column, `name` and `accessor`. -/
def decodeCol : Json → Except DecodeError TableCol
  | .obj kvs =>
    match kvs.lookup "name", kvs.lookup "accessor" with
    | some (.str n), some (.str a) => .ok { Name := n, Accessor := a }
    | _, _ => .error .MalformedPayload
  | _ => .error .MalformedPayload

/-- Modelled from the spec: the payload member `columns`. -/
def decodeCols : List Json → Except DecodeError (List TableCol)
  | [] => .ok []
  | j :: rest => do
    let c ← decodeCol j
    let cs ← decodeCols rest
    pure (c :: cs)

/-- Modelled from the spec: the payload member `rows`; every row is decoded by
`TableRow.UnmarshalJSON` and its error aborts the enclosing decode. -/
def decodeRows (ToComponent : TypedObject → Except DecodeError Component) :
    List Json → Except DecodeError TableRows
  | [] => .ok []
  | j :: rest =>
    match TableRow.UnmarshalJSON unmarshalTypedObjects ToComponent [] j with
    | (_, some err) => .error err
    | (row, none) => do
      let rows ← decodeRows ToComponent rest
      pure (row :: rows)

/-- Modelled from the spec: `json.Unmarshal` into a slice: `null` gives the nil
slice, an array the slice of its decoded elements, which is not nil. The result
is the nil flag and the elements. -/
def decodeSlice {α : Type} (elems : List Json → Except DecodeError (List α)) :
    Json → Except DecodeError (Bool × List α)
  | .null => .ok (true, [])
  | .arr xs => do
    let ys ← elems xs
    pure (false, ys)
  | _ => .error .MalformedPayload

/-- Modelled from the spec: the decoder registered for the link tag; the
payload is `value` and `ref`, and `Metadata.Type` is re-derived from the tag. -/
def decodeLink (P : Env) (o : TypedObject) : Except DecodeError Component :=
  match o.Config with
  | .obj kvs =>
    match kvs.lookup "value", kvs.lookup "ref" with
    | some (.str text), some (.str ref) =>
      .ok (Link.toComponent P
        { Metadata := { Typ := P.typeLink, Title := o.Metadata.Title }
          Config := { Text := text, Ref := ref } })
    | _, _ => .error .MalformedPayload
  | _ => .error .MalformedPayload

/-- Modelled from the spec: the decoder registered for the table tag; the
payload is `columns`, `rows` and `emptyContent`, the cells of the rows are
decoded by `cell`, and `Metadata.Type` is re-derived from the tag. -/
def decodeTable (P : Env) (cell : TypedObject → Except DecodeError Component)
    (o : TypedObject) : Except DecodeError Component :=
  match o.Config with
  | .obj kvs =>
    match kvs.lookup "columns", kvs.lookup "rows", kvs.lookup "emptyContent" with
    | some cols, some rows, some (.str ec) => do
      let cols ← decodeSlice decodeCols cols
      let rows ← decodeSlice (decodeRows cell) rows
      pure (Table.toComponent P
        { Metadata := { Typ := P.typeTable, Title := o.Metadata.Title }
          Config := { Columns := cols.2, nilColumns := cols.1
                      Rows := rows.2, nilRows := rows.1
                      EmptyContent := ec } })
    | _, _, _ => .error .MalformedPayload
  | _ => .error .MalformedPayload

/-- Modelled from the spec: `TypedObject.ToComponent`, declared outside the two
files. Steps 2 to 5 of decode: look the tag up among the registered variants
(link and table), fail with `UnknownVariant` if there is none, otherwise run
the variant's decoder, which decodes nested cells by the same function. `depth`
bounds the nesting of components that is followed. -/
def ToComponent (P : Env) : Nat → TypedObject → Except DecodeError Component
  | 0, _ => .error .MalformedPayload
  | depth + 1, o =>
    if o.Metadata.Typ = P.typeLink then
      decodeLink P o
    else if o.Metadata.Typ = P.typeTable then
      decodeTable P (ToComponent P depth) o
    else
      .error (.UnknownVariant o.Metadata.Typ)

/-- Modelled from the spec: generic decode of a JSON value into a component,
parse the envelope and dispatch on its tag. -/
def decode (P : Env) (depth : Nat) (j : Json) : Except DecodeError Component := do
  let o ← parseTypedObject j
  ToComponent P depth o

end component

/-! ## Vocabulary for the correctness of package `sort` -/
namespace sort

variable {α κ : Type}

/-- The element at index `i`; the default element outside the slice. -/
def elemAt [Inhabited α] (data : List α) (i : Nat) : α :=
  (data[i]?).getD default

/-- The slice after exchanging the elements at `i` and `j`. -/
def exchanged [Inhabited α] (data : List α) (i j : Nat) : List α :=
  (data.set i (elemAt data j)).set j (elemAt data i)

/-- On the elements of `data` the comparison never panics and is the strict
order of the keys. -/
def Agrees [LinearOrder κ]
    (less : α → α → Except Panic Bool) (key : α → κ) (data : List α) : Prop :=
  ∀ x ∈ data, ∀ y ∈ data, less x y = .ok (decide (key x < key y))

/-- The slice `ys` is `xs` with the elements of the window `[a, b)` rearranged: the
whole is a permutation, nothing outside the window moved, and whatever holds
of every element of the window still does. -/
structure Shuffled [Inhabited α] (a b : Nat) (xs ys : List α) : Prop where
  perm : ys.Perm xs
  frame : ∀ k, k < a ∨ b ≤ k → elemAt ys k = elemAt xs k
  window : ∀ P : α → Prop, (∀ k, a ≤ k → k < b → P (elemAt xs k)) →
    ∀ k, a ≤ k → k < b → P (elemAt ys k)

/-- The keys of the window `[a, b)` are in non-decreasing order. -/
def SortedOn [Inhabited α] [LE κ] (key : α → κ) (a b : Nat) (data : List α) : Prop :=
  ∀ p q, a ≤ p → p < q → q < b → key (elemAt data p) ≤ key (elemAt data q)

/-- Heap property of node `r` of the heap stored at `first`, with `hi` nodes:
no child of `r` has a greater key than `r`. -/
def HeapAt [Inhabited α] [LE κ] (key : α → κ) (data : List α) (first hi r : Nat) : Prop :=
  ∀ c, c = 2 * r + 1 ∨ c = 2 * r + 2 → c < hi →
    key (elemAt data (first + c)) ≤ key (elemAt data (first + r))

/-- State of `doPivot_func` once the main partition loop is done, with the
pivot at `lo`: strictly smaller keys in `(lo, a)`, keys not greater than the
pivot in `[a, b)`, keys equal to the pivot in `[b, c)` and keys not smaller
than the pivot in `[c, hi)`. -/
structure PivotState [Inhabited α] [Preorder κ] (key : α → κ) (data : List α)
    (lo hi a b c : Nat) : Prop where
  lo_lt : lo < a
  a_le : a ≤ b
  b_le : b ≤ c
  c_le : c ≤ hi
  smaller : ∀ k, lo < k → k < a → key (elemAt data k) < key (elemAt data lo)
  notGreater : ∀ k, a ≤ k → k < b → key (elemAt data k) ≤ key (elemAt data lo)
  equal : ∀ k, b ≤ k → k < c → key (elemAt data k) = key (elemAt data lo)
  notSmaller : ∀ k, c ≤ k → k < hi → key (elemAt data lo) ≤ key (elemAt data k)

end sort

/-! ## Vocabulary and sample data for the statements about package `component` -/
namespace component

/-- The textual projection of the cell of `row` at `name` (the empty string when
the row has no such cell). -/
def cellString (name : String) (row : TableRow) : String :=
  ((row.index name).map (fun c => c.String)).getD ""

/-- Rows with equal textual projection at `name` appear in `t'` in the same
relative order as in `t`. -/
def SameTieOrder (name : String) (t t' : TableRows) : Prop :=
  ∀ s : String, t'.filter (fun r => decide (cellString name r = s)) =
    t.filter (fun r => decide (cellString name r = s))

/-- A sample environment: the tags `link` and `table`, a title made of the one
given text, and the empty string as the projection supplied by `base`. -/
def sampleEnv : Env :=
  { typeLink := "link"
    typeTable := "table"
    TitleFromString := fun s => [.str s]
    baseString := fun _ => "" }

/-- The link `NewLink("", s, "")` as a component. -/
def sampleLink (s : String) : Component :=
  (NewLink sampleEnv "" s "").toComponent sampleEnv

/-- Two rows with the names `Bob`, `Alice`. -/
def bobAlice : TableRows :=
  [[("name", sampleLink "Bob")], [("name", sampleLink "Alice")]]

/-- A row with the cells `name` and `id`. -/
def namedRow (name id : String) : TableRow :=
  [("name", sampleLink name), ("id", sampleLink id)]

/-- Thirteen rows: twelve named `b`, numbered in order, then one named `a`. -/
def tieRows : TableRows :=
  [namedRow "b" "1", namedRow "b" "2", namedRow "b" "3", namedRow "b" "4",
   namedRow "b" "5", namedRow "b" "6", namedRow "b" "7", namedRow "b" "8",
   namedRow "b" "9", namedRow "b" "10", namedRow "b" "11", namedRow "b" "12",
   namedRow "a" "13"]

/-- Two rows, the second without a cell at `name`. -/
def missingCell : TableRows :=
  [[("name", sampleLink "Bob")], [("age", sampleLink "42")]]

/-- The member `k` of a JSON object. -/
def Json.member (j : Json) (k : String) : Option Json :=
  match j with
  | .obj kvs => kvs.lookup k
  | _ => none

/-- The type tag of an envelope: the string at `metadata.type`. -/
def envelopeType (j : Json) : Option String :=
  match (j.member "metadata").bind (fun m => m.member "type") with
  | some (.str tag) => some tag
  | _ => none

/-- The record denotes a Go value: a slice flagged as nil has no elements. -/
def TableConfig.WellFormed (c : TableConfig) : Prop :=
  (c.nilColumns = true → c.Columns = []) ∧ (c.nilRows = true → c.Rows = [])

/-- A valid component of nesting depth at most `d`: a link carrying the link
tag, or a table carrying the table tag whose rows have pairwise distinct keys
and whose cells are valid components of nesting depth at most `d - 1`. The
slices of the table may be nil, empty or inhabited. -/
def ValidAt (P : Env) : Nat → Component → Prop
  | 0, _ => False
  | d + 1, v =>
    (∃ l : Link, l.Metadata.Typ = P.typeLink ∧ v = l.toComponent P) ∨
    (∃ t : Table, t.Metadata.Typ = P.typeTable ∧ t.Config.WellFormed ∧
      (∀ row ∈ t.Config.Rows, (row.map Prod.fst).Nodup ∧ ∀ kv ∈ row, ValidAt P d kv.2) ∧
      v = t.toComponent P)

/-- The entry `kc` of a decoded row belongs to the entry `kv` of the decoded
mapping: same key, and the cell is what `ToComponent` returned. -/
def DecodedFrom {TypedObject ε : Type} (ToComponent : TypedObject → Except ε Component)
    (kv : String × TypedObject) (kc : String × Component) : Prop :=
  kc.1 = kv.1 ∧ ToComponent kv.2 = .ok kc.2

/-- The cells of `row` are encoded as envelopes that `cell` decodes back. -/
def CellsDecode (cell : TypedObject → Except DecodeError Component) (row : TableRow) : Prop :=
  ∀ kv ∈ row, ∃ o, parseTypedObject kv.2.MarshalJSON = .ok o ∧ cell o = .ok kv.2

/-- The encoding of a row with a link at `first` followed by an envelope with
the unregistered tag `bogus` at `second`. -/
def brokenRowJson (first second : String) : Json :=
  .obj [(first, (sampleLink "x").MarshalJSON),
        (second, .obj [("metadata", .obj [("type", .str "bogus")]), ("config", .null)])]

/-- The envelope of the link in `brokenRowJson`. -/
def linkObject : TypedObject :=
  { Metadata := { Typ := "link", Title := [.str ""] }
    Config := .obj [("value", .str "x"), ("ref", .str "")] }

/-- The envelope with the unregistered tag in `brokenRowJson`. -/
def bogusObject : TypedObject :=
  { Metadata := { Typ := "bogus", Title := [] }
    Config := .null }

/-- A table with the columns `name`, `age` and two rows: a link in each, and a
nested one-row table in the second. -/
def sampleTable : Table :=
  NewTableWithRows sampleEnv "people" (NewTableCols ["name", "age"])
    [[("name", sampleLink "Alice")],
     [("name", sampleLink "Bob"),
      ("age", (NewTableWithRows sampleEnv "" [] [[("years", sampleLink "42")]]).toComponent
        sampleEnv)]]

end component

/-! ## Receiver-threading view of `MarshalJSON` and further sample data -/
namespace component

/-- Local variables of `Link.MarshalJSON`: the struct the receiver `t` points
to and the local variable `m`. -/
structure linkMarshalFrame where
  receiver : Link
  m : Link

/-- Method `Link.MarshalJSON` with the receiver threaded through: the struct the
receiver points to after the call, and the output. -/
def Link.MarshalJSON.run (P : Env) (t : Link) : Link × Json :=
  -- m := linkMarshal(*t)
  let frame : linkMarshalFrame := { receiver := t, m := t }
  -- m.Metadata.Type = typeLink
  let frame : linkMarshalFrame :=
    { frame with m := { frame.m with Metadata := { frame.m.Metadata with Typ := P.typeLink } } }
  -- return json.Marshal(&m)
  (frame.receiver, linkMarshal.json frame.m)

/-- Local variables of `Table.MarshalJSON`: the struct the receiver `t` points
to and the local variable `m`. -/
structure tableMarshalFrame where
  receiver : Table
  m : Table

/-- Method `Table.MarshalJSON` with the receiver threaded through: the struct
the receiver points to after the call, and the output. -/
def Table.MarshalJSON.run (P : Env) (t : Table) : Table × Json :=
  -- m := tableMarshal(*t)
  let frame : tableMarshalFrame := { receiver := t, m := t }
  -- m.Metadata.Type = typeTable
  let frame : tableMarshalFrame :=
    { frame with m := { frame.m with Metadata := { frame.m.Metadata with Typ := P.typeTable } } }
  -- return json.Marshal(&m)
  (frame.receiver, tableMarshal.json frame.m)

/-- The accessors of the columns of a table, in column order. -/
def Table.accessors (t : Table) : List String :=
  t.Config.Columns.map (fun c => c.Accessor)

/-- The column built for a key: name and accessor are the key. -/
def keyColumn (k : String) : TableCol :=
  { Name := k, Accessor := k }

/-- A table with the column `name` and no rows. -/
def nameTable : Table :=
  NewTable sampleEnv "people" (NewTableCols ["name"])

/-- The table `nameTable` after adding one row. -/
def oneRowTable : Table :=
  nameTable.Add [[("name", sampleLink "Alice")]]

/-- A link whose in-memory type tag has been overwritten. -/
def tamperedLink : Link :=
  { Metadata := { Typ := "tampered", Title := [] }
    Config := { Text := "Alice", Ref := "/alice" } }

end component

/-! ## Correctness of package `sort`: exchanging elements -/

namespace sort
variable {α κ : Type}

@[simp]
theorem ok_bind {ε β γ : Type} (x : β) (f : β → Except ε γ) :
    (Except.ok x >>= f) = f x := rfl

@[simp]
theorem error_bind {ε β γ : Type} (e : ε) (f : β → Except ε γ) :
    (Except.error e >>= f) = Except.error e := rfl

@[simp]
theorem pure_eq_ok {ε β : Type} (x : β) : (pure x : Except ε β) = Except.ok x := rfl

theorem cons_set_perm (h y : α) : ∀ (t : List α) (j : Nat), t[j]? = some y →
    (y :: t.set j h).Perm (h :: t)
  | [], j, hy => by simp at hy
  | u :: t, 0, hy => by
    simp at hy
    subst hy
    simpa using List.Perm.swap h u t
  | u :: t, j + 1, hy => by
    simp at hy
    have ih := cons_set_perm h y t j hy
    simp only [List.set_cons_succ]
    exact (List.Perm.swap u y _).trans (((List.Perm.cons u ih)).trans (List.Perm.swap h u t))

theorem set_set_perm' : ∀ (data : List α) (i j : Nat) (x y : α),
    data[i]? = some x → data[j]? = some y → ((data.set i y).set j x).Perm data
  | [], i, j, x, y, hx, _ => by simp at hx
  | h :: t, 0, 0, x, y, hx, hy => by
    simp at hx hy
    subst hx
    simp
  | h :: t, 0, j + 1, x, y, hx, hy => by
    simp at hx hy
    subst hx
    simpa using cons_set_perm h y t j hy
  | h :: t, i + 1, 0, x, y, hx, hy => by
    simp at hx hy
    subst hy
    simpa using cons_set_perm h x t i hx
  | h :: t, i + 1, j + 1, x, y, hx, hy => by
    simp at hx hy
    simpa using set_set_perm' t i j x y hx hy

section
variable [Inhabited α]

theorem getElem?_eq_elemAt {data : List α} {i : Nat} (h : i < data.length) :
    data[i]? = some (elemAt data i) := by
  simp [elemAt, List.getElem?_eq_getElem h]

theorem elemAt_mem {data : List α} {i : Nat} (h : i < data.length) : elemAt data i ∈ data := by
  exact List.mem_iff_getElem?.2 ⟨i, getElem?_eq_elemAt h⟩

theorem elemAt_of_length_le {data : List α} {i : Nat} (h : data.length ≤ i) :
    elemAt data i = default := by
  simp [elemAt, List.getElem?_eq_none h]

@[simp]
theorem length_exchanged (data : List α) (i j : Nat) :
    (exchanged data i j).length = data.length := by
  simp [exchanged]

theorem elemAt_exchanged {data : List α} {i j : Nat} (hi : i < data.length)
    (hj : j < data.length) (k : Nat) :
    elemAt (exchanged data i j) k =
      if k = j then elemAt data i else if k = i then elemAt data j else elemAt data k := by
  unfold exchanged
  by_cases hkj : k = j
  · subst hkj
    simp [elemAt, List.getElem?_set, hj]
  · by_cases hki : k = i
    · subst hki
      simp [elemAt, List.getElem?_set, hi, hkj, Ne.symm hkj]
    · simp [elemAt, List.getElem?_set, hkj, hki, Ne.symm hkj, Ne.symm hki]

theorem Swap_eq {data : List α} {i j : Nat} (hi : i < data.length) (hj : j < data.length) :
    Swap data i j = .ok (exchanged data i j) := by
  simp [Swap, exchanged, getElem?_eq_elemAt hi, getElem?_eq_elemAt hj]

theorem Less_eq [LinearOrder κ]
    {less : α → α → Except Panic Bool} {key : α → κ} {data : List α}
    (hag : Agrees less key data) {i j : Nat} (hi : i < data.length) (hj : j < data.length) :
    Less less data i j = .ok (decide (key (elemAt data i) < key (elemAt data j))) := by
  simp only [Less, getElem?_eq_elemAt hi, getElem?_eq_elemAt hj]
  exact hag _ (elemAt_mem hi) _ (elemAt_mem hj)

theorem exchanged_perm {data : List α} {i j : Nat} (hi : i < data.length)
    (hj : j < data.length) : (exchanged data i j).Perm data :=
  set_set_perm' data i j _ _ (getElem?_eq_elemAt hi) (getElem?_eq_elemAt hj)

theorem Shuffled.refl (a b : Nat) (xs : List α) : Shuffled a b xs xs :=
  ⟨List.Perm.refl _, fun _ _ => rfl, fun _ h => h⟩

theorem Shuffled.length_eq {a b : Nat} {xs ys : List α} (h : Shuffled a b xs ys) :
    ys.length = xs.length := h.perm.length_eq

theorem Shuffled.trans {a b : Nat} {xs ys zs : List α} (h₁ : Shuffled a b xs ys)
    (h₂ : Shuffled a b ys zs) : Shuffled a b xs zs :=
  ⟨h₂.perm.trans h₁.perm, fun k hk => (h₂.frame k hk).trans (h₁.frame k hk),
    fun P hP => h₂.window P (h₁.window P hP)⟩

theorem Shuffled.mono {a b a' b' : Nat} {xs ys : List α} (h : Shuffled a b xs ys)
    (ha : a' ≤ a) (hb : b ≤ b') : Shuffled a' b' xs ys := by
  refine ⟨h.perm, fun k hk => h.frame k (by omega), fun P hP k hk₁ hk₂ => ?_⟩
  by_cases hin : a ≤ k ∧ k < b
  · exact h.window P (fun k' h₁ h₂ => hP k' (by omega) (by omega)) k hin.1 hin.2
  · rw [h.frame k (by omega)]
    exact hP k hk₁ hk₂

theorem Shuffled.exchanged {a b : Nat} {data : List α} {i j : Nat}
    (hia : a ≤ i) (hib : i < b) (hja : a ≤ j) (hjb : j < b)
    (hi : i < data.length) (hj : j < data.length) :
    Shuffled a b data (exchanged data i j) := by
  refine ⟨exchanged_perm hi hj, fun k hk => ?_, fun P hP k hk₁ hk₂ => ?_⟩
  · rw [elemAt_exchanged hi hj]
    have h1 : k ≠ j := by omega
    have h2 : k ≠ i := by omega
    simp [h1, h2]
  · rw [elemAt_exchanged hi hj]
    split
    · exact hP i hia hib
    · split
      · exact hP j hja hjb
      · exact hP k hk₁ hk₂

end

theorem Agrees.of_perm [LinearOrder κ]
    {less : α → α → Except Panic Bool} {key : α → κ} {xs ys : List α}
    (h : Agrees less key xs) (hp : ys.Perm xs) : Agrees less key ys :=
  fun x hx y hy => h x (hp.mem_iff.1 hx) y (hp.mem_iff.1 hy)


end sort

/-! ### Insertion sort and the Shell pass -/

namespace sort
variable {α κ : Type} [Inhabited α] [LinearOrder κ]

theorem insertionInner_spec (less : α → α → Except Panic Bool) (key : α → κ) (a i : Nat) :
    ∀ (j : Nat) (data : List α), j ≤ i → i < data.length → Agrees less key data →
      (∀ p q, a ≤ p → p < q → q ≤ i → p ≠ j → q ≠ j →
        key (elemAt data p) ≤ key (elemAt data q)) →
      (∀ q, j < q → q ≤ i → key (elemAt data j) < key (elemAt data q)) →
      ∃ out, insertionInner less a j data = .ok out ∧ Shuffled a (i + 1) data out ∧
        SortedOn key a (i + 1) out := by
  intro j
  induction j with
  | zero =>
    intro data _ _ _ h1 h2
    refine ⟨data, rfl, Shuffled.refl _ _ _, ?_⟩
    intro p q hp hpq hq
    by_cases hp0 : p = 0
    · subst hp0
      exact le_of_lt (h2 q hpq (by omega))
    · exact h1 p q hp hpq (by omega) hp0 (by omega)
  | succ j ih =>
    intro data hji hi hag h1 h2
    unfold insertionInner
    by_cases haj : a < j + 1
    · rw [if_pos haj, Less_eq hag (by omega) (by omega)]
      simp only [ok_bind]
      by_cases hlt : key (elemAt data (j + 1)) < key (elemAt data j)
      · have hj1 : j + 1 < data.length := by omega
        have hj0 : j < data.length := by omega
        simp only [hlt, decide_True, if_true, Swap_eq hj1 hj0, ok_bind]
        have hsh : Shuffled a (i + 1) data (exchanged data (j + 1) j) :=
          Shuffled.exchanged (by omega) (by omega) (by omega) (by omega) hj1 hj0
        obtain ⟨out, hout, hsh', hsorted⟩ := ih (exchanged data (j + 1) j) (by omega)
          (by simpa using hi) (hag.of_perm hsh.perm)
          (by
            intro p q hp hpq hq hpj hqj
            rw [elemAt_exchanged hj1 hj0, elemAt_exchanged hj1 hj0]
            simp only [hpj, hqj, if_false]
            by_cases hq1 : q = j + 1
            · subst hq1
              simp only [if_true]
              have hpj' : p ≠ j + 1 := by omega
              simp only [hpj', if_false]
              exact h1 p j hp (by omega) (by omega) hpj' (by omega)
            · simp only [hq1, if_false]
              by_cases hp1 : p = j + 1
              · subst hp1
                simp only [if_true]
                exact h1 j q (by omega) (by omega) hq (by omega) hq1
              · simp only [hp1, if_false]
                exact h1 p q hp hpq hq hp1 hq1)
          (by
            intro q hjq hq
            rw [elemAt_exchanged hj1 hj0, elemAt_exchanged hj1 hj0]
            simp only [if_true]
            have hqj : q ≠ j := by omega
            simp only [hqj, if_false]
            by_cases hq1 : q = j + 1
            · subst hq1
              simpa using hlt
            · simp only [hq1, if_false]
              exact h2 q (by omega) hq)
        exact ⟨out, hout, hsh.trans hsh', hsorted⟩
      · simp only [hlt, decide_False, Bool.false_eq_true, if_false]
        refine ⟨data, rfl, Shuffled.refl _ _ _, ?_⟩
        intro p q hp hpq hq
        have hle : key (elemAt data j) ≤ key (elemAt data (j + 1)) := not_lt.1 hlt
        by_cases hp1 : p = j + 1
        · subst hp1
          exact le_of_lt (h2 q hpq (by omega))
        · by_cases hq1 : q = j + 1
          · subst hq1
            by_cases hpj : p = j
            · subst hpj
              exact hle
            · exact le_trans (h1 p j hp (by omega) (by omega) hp1 (by omega)) hle
          · exact h1 p q hp hpq (by omega) hp1 hq1
    · rw [if_neg haj]
      refine ⟨data, rfl, Shuffled.refl _ _ _, ?_⟩
      intro p q hp hpq hq
      by_cases hp1 : p = j + 1
      · subst hp1
        exact le_of_lt (h2 q hpq (by omega))
      · exact h1 p q hp hpq (by omega) hp1 (by omega)

theorem insertionOuter_spec {less : α → α → Except Panic Bool} {key : α → κ} (a b : Nat) :
    ∀ (n i : Nat) (data : List α), i + n = b → a ≤ i → b ≤ data.length →
      Agrees less key data → SortedOn key a i data →
      ∃ out, insertionOuter less a n i data = .ok out ∧ Shuffled a b data out ∧
        SortedOn key a b out := by
  intro n
  induction n with
  | zero =>
    intro i data hin _ _ _ hs
    have : i = b := by omega
    subst this
    exact ⟨data, rfl, Shuffled.refl _ _ _, hs⟩
  | succ n ih =>
    intro i data hin hai hb hag hs
    unfold insertionOuter
    obtain ⟨mid, hmid, hsh, hsorted⟩ := insertionInner_spec less key a i i data
      (le_refl _) (by omega) hag
      (fun p q hp hpq hq hpi hqi => hs p q hp hpq (by omega))
      (fun q hiq hq => by omega)
    rw [hmid]
    simp only [ok_bind]
    obtain ⟨out, hout, hsh', hsorted'⟩ := ih (i + 1) mid (by omega) (by omega)
      (by rw [hsh.length_eq]; exact hb) (hag.of_perm hsh.perm) hsorted
    exact ⟨out, hout, (hsh.mono (le_refl _) (by omega)).trans hsh', hsorted'⟩

theorem insertionSort_func_spec (less : α → α → Except Panic Bool) (key : α → κ)
    (data : List α) (a b : Nat) (hab : a < b) (hb : b ≤ data.length)
    (hag : Agrees less key data) :
    ∃ out, insertionSort_func less data a b = .ok out ∧ Shuffled a b data out ∧
      SortedOn key a b out := by
  unfold insertionSort_func
  exact insertionOuter_spec a b (b - (a + 1)) (a + 1) data (by omega) (by omega) hb hag
    (fun p q hp hpq hq => by omega)

theorem shellPass_spec (less : α → α → Except Panic Bool) (key : α → κ) (a b : Nat) :
    ∀ (n i : Nat) (data : List α), i + n ≤ b → a + 6 ≤ i → b ≤ data.length →
      Agrees less key data →
      ∃ out, shellPass less n i data = .ok out ∧ Shuffled a b data out := by
  intro n
  induction n with
  | zero =>
    intro i data _ _ _ _
    exact ⟨data, rfl, Shuffled.refl _ _ _⟩
  | succ n ih =>
    intro i data hin hai hb hag
    unfold shellPass
    have hi : i < data.length := by omega
    have hi6 : i - 6 < data.length := by omega
    rw [Less_eq hag hi hi6]
    simp only [ok_bind]
    by_cases hlt : key (elemAt data i) < key (elemAt data (i - 6))
    · simp only [hlt, decide_True, if_true, Swap_eq hi hi6, ok_bind]
      have hsh : Shuffled a b data (exchanged data i (i - 6)) :=
        Shuffled.exchanged (by omega) (by omega) (by omega) (by omega) hi hi6
      obtain ⟨out, hout, hsh'⟩ := ih (i + 1) (exchanged data i (i - 6)) (by omega) (by omega)
        (by simpa using hb) (hag.of_perm hsh.perm)
      exact ⟨out, hout, hsh.trans hsh'⟩
    · simp only [hlt, decide_False, Bool.false_eq_true, if_false, pure_eq_ok, ok_bind]
      exact ih (i + 1) data (by omega) (by omega) hb hag

end sort

/-! ### Heapsort: sifting down -/

namespace sort
variable {α κ : Type} [Inhabited α] [LinearOrder κ]

theorem siftDownLoop_spec {less : α → α → Except Panic Bool} {key : α → κ}
    (lo hi first : Nat) :
    ∀ (fuel root : Nat) (data : List α), hi ≤ root + fuel → lo ≤ root →
      first + hi ≤ data.length → Agrees less key data →
      (∀ r, lo ≤ r → r < hi → r ≠ root → HeapAt key data first hi r) →
      (∀ p, lo ≤ p → root = 2 * p + 1 ∨ root = 2 * p + 2 →
        ∀ c, c = 2 * root + 1 ∨ c = 2 * root + 2 → c < hi →
          key (elemAt data (first + c)) ≤ key (elemAt data (first + p))) →
      ∃ out, siftDownLoop less hi first fuel root data = .ok out ∧
        Shuffled (first + lo) (first + hi) data out ∧
        ∀ r, lo ≤ r → r < hi → HeapAt key out first hi r := by
  intro fuel
  induction fuel with
  | zero =>
    intro root data hfuel _ _ _ h1 _
    exact ⟨data, rfl, Shuffled.refl _ _ _, fun r hr hrhi => h1 r hr hrhi (by omega)⟩
  | succ fuel ih =>
    intro root data hfuel hlo hlen hag h1 h2
    unfold siftDownLoop
    simp only []
    by_cases hchild : hi ≤ 2 * root + 1
    · rw [if_pos hchild]
      refine ⟨data, rfl, Shuffled.refl _ _ _, fun r hr hrhi => ?_⟩
      by_cases hrr : r = root
      · subst hrr
        intro c hc hchi
        omega
      · exact h1 r hr hrhi hrr
    · rw [if_neg hchild]
      have cont : ∀ cs, (cs = 2 * root + 1 ∨ cs = 2 * root + 2) → cs < hi →
          (∀ c, c = 2 * root + 1 ∨ c = 2 * root + 2 → c < hi →
            key (elemAt data (first + c)) ≤ key (elemAt data (first + cs))) →
          ∃ out, (do
              let l ← Less less data (first + root) (first + cs)
              if (!l) = true then Except.ok data
              else do
                let data ← Swap data (first + root) (first + cs)
                siftDownLoop less hi first fuel cs data) = .ok out ∧
            Shuffled (first + lo) (first + hi) data out ∧
            ∀ r, lo ≤ r → r < hi → HeapAt key out first hi r := by
        intro cs hcs' hcs hmax
        have hroot : first + root < data.length := by omega
        have hcsl : first + cs < data.length := by omega
        rw [Less_eq hag hroot hcsl]
        simp only [ok_bind]
        by_cases hlt : key (elemAt data (first + root)) < key (elemAt data (first + cs))
        · simp only [hlt, decide_True, Bool.not_true, Bool.false_eq_true, if_false,
            Swap_eq hroot hcsl, ok_bind]
          have hsh : Shuffled (first + lo) (first + hi) data
              (exchanged data (first + root) (first + cs)) :=
            Shuffled.exchanged (by omega) (by omega) (by omega) (by omega) hroot hcsl
          have hel : ∀ k, elemAt (exchanged data (first + root) (first + cs)) (first + k) =
              if k = cs then elemAt data (first + root)
              else if k = root then elemAt data (first + cs) else elemAt data (first + k) := by
            intro k
            rw [elemAt_exchanged hroot hcsl]
            by_cases hk1 : k = cs
            · simp [hk1]
            · by_cases hk2 : k = root
              · have : first + root ≠ first + cs := by omega
                have hrc : root ≠ cs := by omega
                simp [hk2, this, hrc]
              · have e1 : first + k ≠ first + cs := by omega
                have e2 : first + k ≠ first + root := by omega
                simp [hk1, hk2, e1, e2]
          obtain ⟨out, hout, hsh', hheap⟩ := ih cs (exchanged data (first + root) (first + cs))
            (by omega) (by omega) (by simpa using hlen) (hag.of_perm hsh.perm)
            (by
              intro r' hr' hr'hi hr'cs c hc hchi
              rw [hel, hel]
              simp only [hr'cs, if_false]
              by_cases hrr : r' = root
              · subst hrr
                simp only [if_true]
                by_cases hccs : c = cs
                · simp only [hccs, if_true]
                  exact le_of_lt hlt
                · have hcr : c ≠ r' := by omega
                  simp only [hccs, hcr, if_false]
                  exact hmax c hc hchi
              · simp only [hrr, if_false]
                have hccs : c ≠ cs := by omega
                simp only [hccs, if_false]
                by_cases hcr : c = root
                · simp only [hcr, if_true]
                  exact h2 r' hr' (by omega) cs hcs' hcs
                · simp only [hcr, if_false]
                  exact h1 r' hr' hr'hi hrr c hc hchi)
            (by
              intro p hp hpcs c hc hchi
              have hpr : p = root := by omega
              subst hpr
              rw [hel, hel]
              have hccs : c ≠ cs := by omega
              have hcp : c ≠ p := by omega
              have hpcs' : p ≠ cs := by omega
              simp only [hccs, hcp, hpcs', if_false, if_true]
              exact h1 cs (by omega) hcs (by omega) c hc hchi)
          exact ⟨out, hout, hsh.trans hsh', hheap⟩
        · simp only [hlt, decide_False, Bool.not_false, if_true]
          refine ⟨data, rfl, Shuffled.refl _ _ _, fun r' hr' hr'hi => ?_⟩
          by_cases hrr : r' = root
          · subst hrr
            intro c hc hchi
            exact le_trans (hmax c hc hchi) (not_lt.1 hlt)
          · exact h1 r' hr' hr'hi hrr
      by_cases h2c : 2 * root + 1 + 1 < hi
      · rw [if_pos h2c, Less_eq hag (by omega) (by omega)]
        simp only [ok_bind]
        by_cases hlt : key (elemAt data (first + (2 * root + 1))) <
            key (elemAt data (first + (2 * root + 1) + 1))
        · simp only [hlt, decide_True, if_true]
          refine cont (2 * root + 1 + 1) (by omega) h2c ?_
          intro c hc _
          rcases hc with hc | hc
          · subst hc
            exact le_of_lt hlt
          · subst hc
            exact le_refl _
        · simp only [hlt, decide_False, Bool.false_eq_true, if_false]
          refine cont (2 * root + 1) (by omega) (by omega) ?_
          intro c hc _
          rcases hc with hc | hc
          · subst hc
            exact le_refl _
          · subst hc
            exact not_lt.1 hlt
      · rw [if_neg h2c]
        simp only [pure_eq_ok, ok_bind, Bool.false_eq_true, if_false]
        refine cont (2 * root + 1) (by omega) (by omega) ?_
        intro c hc hchi
        rcases hc with hc | hc
        · subst hc
          exact le_refl _
        · omega

theorem siftDown_func_spec (less : α → α → Except Panic Bool) (key : α → κ)
    (data : List α) (lo hi first : Nat) (hlen : first + hi ≤ data.length)
    (hag : Agrees less key data)
    (h1 : ∀ r, lo < r → r < hi → HeapAt key data first hi r) :
    ∃ out, siftDown_func less data lo hi first = .ok out ∧
      Shuffled (first + lo) (first + hi) data out ∧
      ∀ r, lo ≤ r → r < hi → HeapAt key out first hi r := by
  unfold siftDown_func
  exact siftDownLoop_spec lo hi first (hi - lo) lo data (by omega) (le_refl _) hlen hag
    (fun r hr hrhi hne => h1 r (by omega) hrhi)
    (fun p hp hroot => by omega)

end sort

/-! ### Heapsort: building and emptying the heap -/

namespace sort
variable {α κ : Type} [Inhabited α] [LinearOrder κ]

theorem heapifyLoop_spec (less : α → α → Except Panic Bool) (key : α → κ) (hi first : Nat) :
    ∀ (n : Nat) (data : List α), first + hi ≤ data.length → Agrees less key data →
      (∀ r, n ≤ r → r < hi → HeapAt key data first hi r) →
      ∃ out, heapifyLoop less hi first n data = .ok out ∧
        Shuffled first (first + hi) data out ∧
        ∀ r, r < hi → HeapAt key out first hi r := by
  intro n
  induction n with
  | zero =>
    intro data _ _ h
    exact ⟨data, rfl, Shuffled.refl _ _ _, fun r hr => h r (Nat.zero_le _) hr⟩
  | succ i ih =>
    intro data hlen hag h
    unfold heapifyLoop
    obtain ⟨mid, hmid, hsh, hheap⟩ := siftDown_func_spec less key data i hi first
      hlen hag (fun r hr hrhi => h r (by omega) hrhi)
    rw [hmid]
    simp only [ok_bind]
    obtain ⟨out, hout, hsh', hheap'⟩ := ih mid (by rw [hsh.length_eq]; exact hlen)
      (hag.of_perm hsh.perm) hheap
    exact ⟨out, hout, (hsh.mono (by omega) (le_refl _)).trans hsh', hheap'⟩

theorem heap_root_max {key : α → κ} {data : List α} {first n : Nat}
    (h : ∀ r, r < n → HeapAt key data first n r) :
    ∀ r, r < n → key (elemAt data (first + r)) ≤ key (elemAt data (first + 0)) := by
  intro r
  induction r using Nat.strong_induction_on with
  | _ r ih =>
    intro hr
    by_cases hr0 : r = 0
    · subst hr0
      exact le_refl _
    · have hp : (r - 1) / 2 < r := by omega
      have hc : r = 2 * ((r - 1) / 2) + 1 ∨ r = 2 * ((r - 1) / 2) + 2 := by omega
      exact le_trans (h ((r - 1) / 2) (by omega) r hc hr) (ih _ hp (by omega))

theorem popLoop_spec (less : α → α → Except Panic Bool) (key : α → κ) (first N : Nat) :
    ∀ (n : Nat) (data : List α), n ≤ N → first + N ≤ data.length → Agrees less key data →
      (∀ r, r < n → HeapAt key data first n r) →
      SortedOn key (first + n) (first + N) data →
      (∀ p q, p < n → n ≤ q → q < N →
        key (elemAt data (first + p)) ≤ key (elemAt data (first + q))) →
      ∃ out, popLoop less first n data = .ok out ∧
        Shuffled first (first + N) data out ∧ SortedOn key first (first + N) out := by
  intro n
  induction n with
  | zero =>
    intro data _ _ _ _ hs _
    exact ⟨data, rfl, Shuffled.refl _ _ _, by simpa using hs⟩
  | succ i ih =>
    intro data hn hlen hag hheap hs hcross
    unfold popLoop
    have hf : first < data.length := by omega
    have hfi : first + i < data.length := by omega
    rw [Swap_eq hf hfi]
    simp only [ok_bind]
    have hsh1 : Shuffled first (first + N) data (exchanged data first (first + i)) :=
      Shuffled.exchanged (le_refl _) (by omega) (by omega) (by omega) hf hfi
    have hel : ∀ k, elemAt (exchanged data first (first + i)) (first + k) =
        if k = i then elemAt data first
        else if k = 0 then elemAt data (first + i) else elemAt data (first + k) := by
      intro k
      rw [elemAt_exchanged hf hfi]
      by_cases hk1 : k = i
      · simp [hk1]
      · by_cases hk2 : k = 0
        · subst hk2
          have : first ≠ first + i := by omega
          have h0 : ¬ (0 = i) := hk1
          simp [this, h0]
        · have e1 : first + k ≠ first + i := by omega
          have e2 : first + k ≠ first := by omega
          simp [hk1, hk2, e1, e2]
    have hrootmax := heap_root_max hheap
    have hag1 := hag.of_perm hsh1.perm
    obtain ⟨mid, hmid, hsh2, hheap2⟩ := siftDown_func_spec less key
      (exchanged data first (first + i)) 0 i first
      (by simp; omega) hag1
      (by
        intro r hr hri c hc hci
        rw [hel, hel]
        have h1 : c ≠ i := by omega
        have h2 : c ≠ 0 := by omega
        have h3 : r ≠ i := by omega
        have h4 : r ≠ 0 := by omega
        simp only [h1, h2, h3, h4, if_false]
        exact hheap r (by omega) c hc (by omega))
    rw [hmid]
    simp only [ok_bind]
    have hsh2' : Shuffled first (first + i) (exchanged data first (first + i)) mid := by
      simpa using hsh2
    have hframe : ∀ q, i ≤ q → elemAt mid (first + q) =
        elemAt (exchanged data first (first + i)) (first + q) :=
      fun q hq => hsh2'.frame (first + q) (Or.inr (by omega))
    obtain ⟨out, hout, hsh3, hsorted⟩ := ih mid (by omega)
      (by rw [hsh2.length_eq]; simpa using hlen) (hag1.of_perm hsh2.perm)
      (fun r hr => hheap2 r (Nat.zero_le _) hr)
      (by
        intro p q hp hpq hq
        obtain ⟨p', rfl⟩ : ∃ p', p = first + p' := ⟨p - first, by omega⟩
        obtain ⟨q', rfl⟩ : ∃ q', q = first + q' := ⟨q - first, by omega⟩
        rw [hframe p' (by omega), hframe q' (by omega), hel, hel]
        have hq1 : q' ≠ i := by omega
        have hq2 : q' ≠ 0 := by omega
        simp only [hq1, hq2, if_false]
        by_cases hp1 : p' = i
        · simp only [hp1, if_true]
          have := hcross 0 q' (by omega) (by omega) (by omega)
          simpa using this
        · have hp2 : p' ≠ 0 := by omega
          simp only [hp1, hp2, if_false]
          exact hs (first + p') (first + q') (by omega) (by omega) (by omega))
      (by
        intro p q hp hq hqN
        rw [hframe q hq]
        have hwin := hsh2'.window
          (fun x => key x ≤ key (elemAt (exchanged data first (first + i)) (first + q)))
          (by
            intro k hk1 hk2
            obtain ⟨k', rfl⟩ : ∃ k', k = first + k' := ⟨k - first, by omega⟩
            have hk'i : k' ≠ i := by omega
            show key (elemAt (exchanged data first (first + i)) (first + k')) ≤ _
            rw [hel, hel]
            simp only [hk'i, if_false]
            by_cases hqi : q = i
            · simp only [hqi, if_true]
              by_cases hk0 : k' = 0
              · simp only [hk0, if_true]
                simpa using hrootmax i (by omega)
              · simp only [hk0, if_false]
                simpa using hrootmax k' (by omega)
            · have hq0 : q ≠ 0 := by omega
              simp only [hqi, hq0, if_false]
              by_cases hk0 : k' = 0
              · simp only [hk0, if_true]
                exact hcross i q (by omega) (by omega) hqN
              · simp only [hk0, if_false]
                exact hcross k' q (by omega) (by omega) hqN)
        exact hwin (first + p) (by omega) (by omega))
    exact ⟨out, hout, hsh1.trans ((hsh2'.mono (le_refl _) (by omega)).trans hsh3), hsorted⟩

theorem heapSort_func_spec {less : α → α → Except Panic Bool} {key : α → κ}
    {data : List α} {a b : Nat} (hab : a ≤ b) (hb : b ≤ data.length)
    (hag : Agrees less key data) :
    ∃ out, heapSort_func less data a b = .ok out ∧ Shuffled a b data out ∧
      SortedOn key a b out := by
  unfold heapSort_func
  simp only []
  obtain ⟨mid, hmid, hsh, hheap⟩ := heapifyLoop_spec less key (b - a) a
    ((b - a - 1) / 2 + 1) data (by omega) hag
    (by
      intro r hr hrhi c hc hchi
      omega)
  rw [hmid]
  simp only [ok_bind]
  obtain ⟨out, hout, hsh', hsorted⟩ := popLoop_spec less key a (b - a)
    (b - a) mid (le_refl _) (by rw [hsh.length_eq]; omega) (hag.of_perm hsh.perm) hheap
    (fun p q hp hpq hq => by omega) (fun p q hp hq hqN => by omega)
  have e : a + (b - a) = b := by omega
  rw [e] at hsh hsh' hsorted
  exact ⟨out, hout, hsh.trans hsh', hsorted⟩

end sort

/-! ### Quicksort: the scanning loops and the median of three -/

namespace sort
variable {α κ : Type} [Inhabited α] [LinearOrder κ]

theorem scanLess_spec (less : α → α → Except Panic Bool) (key : α → κ) {data : List α}
    (hag : Agrees less key data) (pivot c : Nat) (hp : pivot < data.length)
    (hc : c ≤ data.length) :
    ∀ (fuel a : Nat), c ≤ a + fuel → a ≤ c →
      ∃ a', scanLess less data pivot c fuel a = .ok a' ∧ a ≤ a' ∧ a' ≤ c ∧
        (∀ k, a ≤ k → k < a' → key (elemAt data k) < key (elemAt data pivot)) ∧
        (a' < c → ¬ key (elemAt data a') < key (elemAt data pivot)) := by
  intro fuel
  induction fuel with
  | zero =>
    intro a hf hac
    exact ⟨a, rfl, le_refl _, hac, fun k h1 h2 => by omega, fun h => by omega⟩
  | succ fuel ih =>
    intro a hf hac
    unfold scanLess
    by_cases hlt : a < c
    · rw [if_pos hlt, Less_eq hag (by omega) hp]
      simp only [ok_bind]
      by_cases hk : key (elemAt data a) < key (elemAt data pivot)
      · simp only [hk, decide_True, if_true]
        obtain ⟨a', h1, h2, h3, h4, h5⟩ := ih (a + 1) (by omega) (by omega)
        refine ⟨a', h1, by omega, h3, fun k hk1 hk2 => ?_, h5⟩
        by_cases hka : k = a
        · subst hka
          exact hk
        · exact h4 k (by omega) hk2
      · simp only [hk, decide_False, Bool.false_eq_true, if_false]
        exact ⟨a, rfl, le_refl _, hac, fun k h1 h2 => by omega, fun _ => hk⟩
    · rw [if_neg hlt]
      exact ⟨a, rfl, le_refl _, hac, fun k h1 h2 => by omega, fun h => by omega⟩

theorem scanNotGreater_spec (less : α → α → Except Panic Bool) (key : α → κ) {data : List α}
    (hag : Agrees less key data) (pivot c : Nat) (hp : pivot < data.length)
    (hc : c ≤ data.length) :
    ∀ (fuel b : Nat), c ≤ b + fuel → b ≤ c →
      ∃ b', scanNotGreater less data pivot c fuel b = .ok b' ∧ b ≤ b' ∧ b' ≤ c ∧
        (∀ k, b ≤ k → k < b' → key (elemAt data k) ≤ key (elemAt data pivot)) ∧
        (b' < c → key (elemAt data pivot) < key (elemAt data b')) := by
  intro fuel
  induction fuel with
  | zero =>
    intro b hf hbc
    exact ⟨b, rfl, le_refl _, hbc, fun k h1 h2 => by omega, fun h => by omega⟩
  | succ fuel ih =>
    intro b hf hbc
    unfold scanNotGreater
    by_cases hlt : b < c
    · rw [if_pos hlt, Less_eq hag hp (by omega)]
      simp only [ok_bind]
      by_cases hk : key (elemAt data pivot) < key (elemAt data b)
      · simp only [hk, decide_True, Bool.not_true, Bool.false_eq_true, if_false]
        exact ⟨b, rfl, le_refl _, hbc, fun k h1 h2 => by omega, fun _ => hk⟩
      · simp only [hk, decide_False, Bool.not_false, if_true]
        obtain ⟨b', h1, h2, h3, h4, h5⟩ := ih (b + 1) (by omega) (by omega)
        refine ⟨b', h1, by omega, h3, fun k hk1 hk2 => ?_, h5⟩
        by_cases hkb : k = b
        · subst hkb
          exact not_lt.1 hk
        · exact h4 k (by omega) hk2
    · rw [if_neg hlt]
      exact ⟨b, rfl, le_refl _, hbc, fun k h1 h2 => by omega, fun h => by omega⟩

theorem scanGreaterDown_spec (less : α → α → Except Panic Bool) (key : α → κ) {data : List α}
    (hag : Agrees less key data) (pivot b : Nat) (hp : pivot < data.length) :
    ∀ (fuel c : Nat), c ≤ b + fuel → b ≤ c → c ≤ data.length →
      ∃ c', scanGreaterDown less data pivot b fuel c = .ok c' ∧ b ≤ c' ∧ c' ≤ c ∧
        (∀ k, c' ≤ k → k < c → key (elemAt data pivot) < key (elemAt data k)) ∧
        (b < c' → key (elemAt data (c' - 1)) ≤ key (elemAt data pivot)) := by
  intro fuel
  induction fuel with
  | zero =>
    intro c hf hbc _
    exact ⟨c, rfl, hbc, le_refl _, fun k h1 h2 => by omega, fun h => by omega⟩
  | succ fuel ih =>
    intro c hf hbc hc
    unfold scanGreaterDown
    by_cases hlt : b < c
    · rw [if_pos hlt, Less_eq hag hp (by omega)]
      simp only [ok_bind]
      by_cases hk : key (elemAt data pivot) < key (elemAt data (c - 1))
      · simp only [hk, decide_True, if_true]
        obtain ⟨c', h1, h2, h3, h4, h5⟩ := ih (c - 1) (by omega) (by omega) (by omega)
        refine ⟨c', h1, h2, by omega, fun k hk1 hk2 => ?_, h5⟩
        by_cases hkc : k = c - 1
        · subst hkc
          exact hk
        · exact h4 k hk1 (by omega)
      · simp only [hk, decide_False, Bool.false_eq_true, if_false]
        exact ⟨c, rfl, hbc, le_refl _, fun k h1 h2 => by omega, fun _ => not_lt.1 hk⟩
    · rw [if_neg hlt]
      exact ⟨c, rfl, hbc, le_refl _, fun k h1 h2 => by omega, fun h => by omega⟩

theorem scanNotLessDown_spec (less : α → α → Except Panic Bool) (key : α → κ) {data : List α}
    (hag : Agrees less key data) (pivot a : Nat) (hp : pivot < data.length) :
    ∀ (fuel b : Nat), b ≤ a + fuel → a ≤ b → b ≤ data.length →
      ∃ b', scanNotLessDown less data pivot a fuel b = .ok b' ∧ a ≤ b' ∧ b' ≤ b ∧
        (∀ k, b' ≤ k → k < b → key (elemAt data pivot) ≤ key (elemAt data k)) ∧
        (a < b' → key (elemAt data (b' - 1)) < key (elemAt data pivot)) := by
  intro fuel
  induction fuel with
  | zero =>
    intro b hf hab _
    exact ⟨b, rfl, hab, le_refl _, fun k h1 h2 => by omega, fun h => by omega⟩
  | succ fuel ih =>
    intro b hf hab hb
    unfold scanNotLessDown
    by_cases hlt : a < b
    · rw [if_pos hlt, Less_eq hag (by omega) hp]
      simp only [ok_bind]
      by_cases hk : key (elemAt data (b - 1)) < key (elemAt data pivot)
      · simp only [hk, decide_True, Bool.not_true, Bool.false_eq_true, if_false]
        exact ⟨b, rfl, hab, le_refl _, fun k h1 h2 => by omega, fun _ => hk⟩
      · simp only [hk, decide_False, Bool.not_false, if_true]
        obtain ⟨b', h1, h2, h3, h4, h5⟩ := ih (b - 1) (by omega) (by omega) (by omega)
        refine ⟨b', h1, h2, by omega, fun k hk1 hk2 => ?_, h5⟩
        by_cases hkb : k = b - 1
        · subst hkb
          exact not_lt.1 hk
        · exact h4 k hk1 (by omega)
    · rw [if_neg hlt]
      exact ⟨b, rfl, hab, le_refl _, fun k h1 h2 => by omega, fun h => by omega⟩

/-- A conditional exchange `if data.Less(i, j) { data.Swap(i, j) }` followed by `f`. -/
theorem condSwap_spec {less : α → α → Except Panic Bool} {key : α → κ} {data : List α}
    (hag : Agrees less key data) {lo hi i j : Nat} (hi1 : lo ≤ i) (hi2 : i < hi)
    (hj1 : lo ≤ j) (hj2 : j < hi) (hhi : hi ≤ data.length) :
    ∃ out, (∀ {β : Type} (f : List α → Except Panic β), (do
        let c ← Less less data i j
        if c = true then (do let y ← Swap data i j; f y) else (do let y ← pure data; f y)) =
          f out) ∧
      Shuffled lo hi data out ∧
      key (elemAt out j) ≤ key (elemAt out i) ∧
      (∀ k, k ≠ i → k ≠ j → elemAt out k = elemAt data k) ∧
      ((elemAt out i = elemAt data i ∧ elemAt out j = elemAt data j) ∨
        (elemAt out i = elemAt data j ∧ elemAt out j = elemAt data i)) := by
  have hil : i < data.length := by omega
  have hjl : j < data.length := by omega
  by_cases hlt : key (elemAt data i) < key (elemAt data j)
  · refine ⟨exchanged data i j, ?_, Shuffled.exchanged hi1 hi2 hj1 hj2 hil hjl, ?_, ?_,
      Or.inr ⟨?_, ?_⟩⟩
    · intro β f
      rw [Less_eq hag hil hjl]
      simp only [ok_bind, hlt, decide_True, if_true, Swap_eq hil hjl]
    · rw [elemAt_exchanged hil hjl, elemAt_exchanged hil hjl]
      simp only [if_true]
      by_cases hij : i = j
      · simp [hij]
      · simp only [hij, if_false, if_true]
        exact le_of_lt hlt
    · intro k hk1 hk2
      rw [elemAt_exchanged hil hjl]
      simp [hk1, hk2]
    · rw [elemAt_exchanged hil hjl]
      by_cases hij : i = j
      · simp [hij]
      · simp [hij]
    · rw [elemAt_exchanged hil hjl]
      simp
  · refine ⟨data, ?_, Shuffled.refl _ _ _, not_lt.1 hlt, fun _ _ _ => rfl, Or.inl ⟨rfl, rfl⟩⟩
    intro β f
    rw [Less_eq hag hil hjl]
    simp only [ok_bind, hlt, decide_False, Bool.false_eq_true, if_false, pure_eq_ok]

theorem medianOfThree_func_spec (less : α → α → Except Panic Bool) (key : α → κ)
    {data : List α} (hag : Agrees less key data) (lo hi m1 m0 m2 : Nat)
    (h11 : lo ≤ m1) (h12 : m1 < hi) (h01 : lo ≤ m0) (h02 : m0 < hi)
    (h21 : lo ≤ m2) (h22 : m2 < hi) (hhi : hi ≤ data.length)
    (hd1 : m1 ≠ m0) (hd2 : m1 ≠ m2) (hd3 : m0 ≠ m2) :
    ∃ out, medianOfThree_func less data m1 m0 m2 = .ok out ∧ Shuffled lo hi data out ∧
      key (elemAt out m0) ≤ key (elemAt out m1) ∧
      key (elemAt out m1) ≤ key (elemAt out m2) := by
  unfold medianOfThree_func
  obtain ⟨d1, hd1eq, hsh1, hle1, hfr1, _⟩ := condSwap_spec hag h11 h12 h01 h02 hhi
  have hag1 := hag.of_perm hsh1.perm
  have hlen1 : hi ≤ d1.length := by rw [hsh1.length_eq]; exact hhi
  rw [hd1eq]
  have h2l : m2 < d1.length := by omega
  have h1l : m1 < d1.length := by omega
  rw [Less_eq hag1 h2l h1l]
  simp only [ok_bind]
  by_cases hlt : key (elemAt d1 m2) < key (elemAt d1 m1)
  · simp only [hlt, decide_True, if_true, Swap_eq h2l h1l, ok_bind]
    have hsh2 : Shuffled lo hi d1 (exchanged d1 m2 m1) :=
      Shuffled.exchanged h21 h22 h11 h12 h2l h1l
    obtain ⟨d3, hd3eq, hsh3, hle3, hfr3, hcases⟩ := condSwap_spec
      (hag1.of_perm hsh2.perm) h11 h12 h01 h02
      (by simpa using hlen1)
    have hd3eq' := hd3eq (fun y => Except.ok y)
    simp only [pure_eq_ok, ok_bind] at hd3eq'
    refine ⟨d3, ?_, hsh1.trans (hsh2.trans hsh3), hle3, ?_⟩
    · rw [← hd3eq']
      congr
      funext c
      cases c <;> simp
      cases Swap (exchanged d1 m2 m1) m1 m0 <;> rfl
    rw [hfr3 m2 (Ne.symm hd2) (Ne.symm hd3)]
    have e2 : elemAt (exchanged d1 m2 m1) m2 = elemAt d1 m1 := by
      rw [elemAt_exchanged h2l h1l]
      simp [Ne.symm hd2]
    have e1 : elemAt (exchanged d1 m2 m1) m1 = elemAt d1 m2 := by
      rw [elemAt_exchanged h2l h1l]
      simp
    have e0 : elemAt (exchanged d1 m2 m1) m0 = elemAt d1 m0 := by
      rw [elemAt_exchanged h2l h1l]
      simp [Ne.symm hd1, hd3]
    rw [e2]
    rcases hcases with ⟨h, _⟩ | ⟨h, _⟩
    · rw [h, e1]
      exact le_of_lt hlt
    · rw [h, e0]
      exact hle1
  · simp only [hlt, decide_False, Bool.false_eq_true, if_false, pure_eq_ok]
    exact ⟨d1, rfl, hsh1, hle1, not_lt.1 hlt⟩

end sort

/-! ### Quicksort: the partition loops -/

namespace sort
variable {α κ : Type} [Inhabited α] [LinearOrder κ]

theorem pivotMedians_spec {less : α → α → Except Panic Bool} {key : α → κ}
    {data : List α} (hag : Agrees less key data) {lo hi : Nat} (h12 : 12 < hi - lo)
    (hhi : hi ≤ data.length) :
    ∃ out, pivotMedians less data lo hi = .ok out ∧ Shuffled lo hi data out ∧
      key (elemAt out lo) ≤ key (elemAt out (hi - 1)) := by
  unfold pivotMedians
  simp only []
  have final : ∀ d1, Shuffled lo hi data d1 →
      ∃ out, medianOfThree_func less d1 lo ((lo + hi) / 2) (hi - 1) = .ok out ∧
        Shuffled lo hi data out ∧ key (elemAt out lo) ≤ key (elemAt out (hi - 1)) := by
    intro d1 s1
    obtain ⟨out, e, s, _, hle⟩ := medianOfThree_func_spec less key (hag.of_perm s1.perm)
      lo hi (lo) ((lo + hi) / 2)
      (hi - 1) (by omega) (by omega) (by omega) (by omega) (by omega) (by omega)
      (by rw [s1.length_eq]; exact hhi) (by omega) (by omega) (by omega)
    exact ⟨out, e, s1.trans s, hle⟩
  by_cases h40 : 40 < hi - lo
  · rw [if_pos h40]
    obtain ⟨d1, e1, s1, _⟩ := medianOfThree_func_spec less key hag
      lo hi (lo) (lo + (hi - lo) / 8)
      (lo + 2 * ((hi - lo) / 8))
      (by omega) (by omega) (by omega) (by omega) (by omega) (by omega) hhi
      (by omega) (by omega) (by omega)
    rw [e1]
    simp only [ok_bind]
    have hag1 := hag.of_perm s1.perm
    obtain ⟨d2, e2, s2, _⟩ := medianOfThree_func_spec less key hag1
      lo hi ((lo + hi) / 2) ((lo + hi) / 2 - (hi - lo) / 8)
      ((lo + hi) / 2 + (hi - lo) / 8)
      (by omega) (by omega) (by omega) (by omega) (by omega) (by omega)
      (by rw [s1.length_eq]; exact hhi) (by omega) (by omega) (by omega)
    rw [e2]
    simp only [ok_bind]
    have hag2 := hag1.of_perm s2.perm
    obtain ⟨d3, e3, s3, _⟩ := medianOfThree_func_spec less key hag2
      lo hi (hi - 1) (hi - 1 - (hi - lo) / 8)
      (hi - 1 - 2 * ((hi - lo) / 8))
      (by omega) (by omega) (by omega) (by omega) (by omega) (by omega)
      (by rw [s2.length_eq, s1.length_eq]; exact hhi) (by omega) (by omega) (by omega)
    rw [e3]
    simp only [ok_bind]
    exact final d3 (s1.trans (s2.trans s3))
  · rw [if_neg h40]
    simp only [pure_eq_ok, ok_bind]
    exact final data (Shuffled.refl _ _ _)

theorem partitionLoop_spec (less : α → α → Except Panic Bool) (key : α → κ)
    (lo a hi : Nat) (hloa : lo < a) :
    ∀ (fuel : Nat) (data : List α) (b c : Nat), c - b < fuel → a ≤ b → b ≤ c → c ≤ hi - 1 →
      hi ≤ data.length → Agrees less key data →
      (∀ k, a ≤ k → k < b → key (elemAt data k) ≤ key (elemAt data lo)) →
      (∀ k, c ≤ k → k < hi - 1 → key (elemAt data lo) < key (elemAt data k)) →
      ∃ out b', partitionLoop less lo fuel data b c = .ok (out, b', b') ∧
        Shuffled a (hi - 1) data out ∧ a ≤ b' ∧ b' ≤ hi - 1 ∧
        (∀ k, a ≤ k → k < b' → key (elemAt out k) ≤ key (elemAt out lo)) ∧
        (∀ k, b' ≤ k → k < hi - 1 → key (elemAt out lo) < key (elemAt out k)) := by
  intro fuel
  induction fuel with
  | zero =>
    intro data b c hf
    omega
  | succ fuel ih =>
    intro data b c hf hab hbc hchi hlen hag hle hgt
    unfold partitionLoop
    obtain ⟨b1, eb, hb1, hb2, hb3, hb4⟩ := scanNotGreater_spec less key hag
      lo c (by omega) (by omega) (c - b) b (by omega) hbc
    rw [eb]
    simp only [ok_bind]
    obtain ⟨c1, ec, hc1, hc2, hc3, hc4⟩ := scanGreaterDown_spec less key hag
      lo b1 (by omega) (c - b1) c (by omega) hb2 (by omega)
    rw [ec]
    simp only [ok_bind]
    by_cases hexit : c1 ≤ b1
    · rw [if_pos hexit]
      have hcb : c1 = b1 := by omega
      subst hcb
      refine ⟨data, c1, rfl, Shuffled.refl _ _ _, by omega, by omega, ?_, ?_⟩
      · intro k hk1 hk2
        by_cases hkb : k < b
        · exact hle k hk1 hkb
        · exact hb3 k (by omega) hk2
      · intro k hk1 hk2
        by_cases hkc : k < c
        · exact hc3 k hk1 hkc
        · exact hgt k (by omega) hk2
    · rw [if_neg hexit]
      have hbl : b1 < data.length := by omega
      have hcl : c1 - 1 < data.length := by omega
      rw [Swap_eq hbl hcl]
      simp only [ok_bind]
      have hgtb : key (elemAt data lo) < key (elemAt data b1) := hb4 (by omega)
      have hlec : key (elemAt data (c1 - 1)) ≤ key (elemAt data lo) := hc4 (by omega)
      have hne : b1 ≠ c1 - 1 := by
        intro h
        rw [← h] at hlec
        exact absurd hgtb (not_lt.2 hlec)
      have hsh : Shuffled a (hi - 1) data (exchanged data b1 (c1 - 1)) :=
        Shuffled.exchanged (by omega) (by omega) (by omega) (by omega) hbl hcl
      have hlo : elemAt (exchanged data b1 (c1 - 1)) lo = elemAt data lo :=
        hsh.frame lo (Or.inl hloa)
      obtain ⟨out, b', e, hsh', h1, h2, h3, h4⟩ := ih (exchanged data b1 (c1 - 1)) (b1 + 1)
        (c1 - 1) (by omega) (by omega) (by omega) (by omega) (by simpa using hlen)
        (hag.of_perm hsh.perm)
        (by
          intro k hk1 hk2
          rw [hlo, elemAt_exchanged hbl hcl]
          have hk : k ≠ c1 - 1 := by omega
          simp only [hk, if_false]
          by_cases hkb : k = b1
          · simp only [hkb, if_true]
            exact hlec
          · simp only [hkb, if_false]
            by_cases hkb' : k < b
            · exact hle k hk1 hkb'
            · exact hb3 k (by omega) (by omega))
        (by
          intro k hk1 hk2
          rw [hlo, elemAt_exchanged hbl hcl]
          by_cases hkc : k = c1 - 1
          · simp only [hkc, if_true]
            exact hgtb
          · have hk : k ≠ b1 := by omega
            simp only [hkc, hk, if_false]
            by_cases hkc' : k < c
            · exact hc3 k (by omega) hkc'
            · exact hgt k (by omega) hk2)
      exact ⟨out, b', e, hsh.trans hsh', h1, h2, h3, h4⟩

theorem protectLoop_spec (less : α → α → Except Panic Bool) (key : α → κ)
    (lo hi c : Nat) :
    ∀ (fuel : Nat) (data : List α) (a b : Nat), b - a < fuel → hi ≤ data.length →
      Agrees less key data → PivotState key data lo hi a b c →
      ∃ out a' b', protectLoop less lo fuel data a b = .ok (out, a', b') ∧
        Shuffled a b data out ∧ PivotState key out lo hi b' b' c := by
  intro fuel
  induction fuel with
  | zero =>
    intro data a b hf
    omega
  | succ fuel ih =>
    intro data a b hf hlen hag hps
    have hloa := hps.lo_lt
    have hab := hps.a_le
    have hbc := hps.b_le
    have hchi := hps.c_le
    unfold protectLoop
    obtain ⟨b1, eb, hb1, hb2, hb3, hb4⟩ := scanNotLessDown_spec less key hag
      lo a (by omega) (b - a) b (by omega) hab (by omega)
    rw [eb]
    simp only [ok_bind]
    obtain ⟨a1, ea, ha1, ha2, ha3, ha4⟩ := scanLess_spec less key hag
      lo b1 (by omega) (by omega) (b1 - a) a (by omega) hb1
    rw [ea]
    simp only [ok_bind]
    by_cases hexit : b1 ≤ a1
    · rw [if_pos hexit]
      have hcb : a1 = b1 := by omega
      subst hcb
      refine ⟨data, a1, a1, rfl, Shuffled.refl _ _ _, ⟨by omega, le_refl _, by omega, hchi,
        ?_, fun k h1 h2 => by omega, ?_, hps.notSmaller⟩⟩
      · intro k hk1 hk2
        by_cases hka : k < a
        · exact hps.smaller k hk1 hka
        · exact ha3 k (by omega) hk2
      · intro k hk1 hk2
        by_cases hkb : k < b
        · exact le_antisymm (hps.notGreater k (by omega) hkb) (hb3 k hk1 hkb)
        · exact hps.equal k (by omega) hk2
    · rw [if_neg hexit]
      have hal : a1 < data.length := by omega
      have hbl : b1 - 1 < data.length := by omega
      rw [Swap_eq hal hbl]
      simp only [ok_bind]
      have hlta : ¬ key (elemAt data a1) < key (elemAt data lo) := ha4 (by omega)
      have hltb : key (elemAt data (b1 - 1)) < key (elemAt data lo) := hb4 (by omega)
      have hne : a1 ≠ b1 - 1 := by
        intro h
        rw [← h] at hltb
        exact hlta hltb
      have hsh : Shuffled a b data (exchanged data a1 (b1 - 1)) :=
        Shuffled.exchanged (by omega) (by omega) (by omega) (by omega) hal hbl
      have hlo : elemAt (exchanged data a1 (b1 - 1)) lo = elemAt data lo :=
        hsh.frame lo (Or.inl hloa)
      obtain ⟨out, a', b', e, hsh', hps'⟩ := ih (exchanged data a1 (b1 - 1)) (a1 + 1)
        (b1 - 1) (by omega) (by simpa using hlen) (hag.of_perm hsh.perm)
        ⟨by omega, by omega, by omega, hchi,
          (by
            intro k hk1 hk2
            rw [hlo, elemAt_exchanged hal hbl]
            have hk : k ≠ b1 - 1 := by omega
            simp only [hk, if_false]
            by_cases hka : k = a1
            · simp only [hka, if_true]
              exact hltb
            · simp only [hka, if_false]
              by_cases hka' : k < a
              · exact hps.smaller k hk1 hka'
              · exact ha3 k (by omega) (by omega)),
          (by
            intro k hk1 hk2
            rw [hlo, elemAt_exchanged hal hbl]
            have hk : k ≠ b1 - 1 := by omega
            have hk' : k ≠ a1 := by omega
            simp only [hk, hk', if_false]
            exact hps.notGreater k (by omega) (by omega)),
          (by
            intro k hk1 hk2
            rw [hlo, elemAt_exchanged hal hbl]
            by_cases hkb : k = b1 - 1
            · simp only [hkb, if_true]
              exact le_antisymm (hps.notGreater a1 (by omega) (by omega)) (not_lt.1 hlta)
            · have hk : k ≠ a1 := by omega
              simp only [hkb, hk, if_false]
              by_cases hkb' : k < b
              · exact le_antisymm (hps.notGreater k (by omega) hkb') (hb3 k (by omega) hkb')
              · exact hps.equal k (by omega) hk2),
          (by
            intro k hk1 hk2
            rw [hlo, elemAt_exchanged hal hbl]
            have hk : k ≠ b1 - 1 := by omega
            have hk' : k ≠ a1 := by omega
            simp only [hk, hk', if_false]
            exact hps.notSmaller k hk1 hk2)⟩
      exact ⟨out, a', b', e, hsh.trans (hsh'.mono (by omega) (by omega)), hps'⟩

end sort

/-! ### Quicksort: the tests for duplicates of the pivot -/

namespace sort
variable {α κ : Type} [Inhabited α] [LinearOrder κ]

/-- Third equality test of `doPivot_func`: `if !data.Less(m, pivot) { data.Swap(m, b-1); b-- }`. -/
theorem pivotDups_third {less : α → α → Except Panic Bool} {key : α → κ}
    {d : List α} (hag : Agrees less key d) {lo hi a m b c : Nat} (p₁ p₂ : Bool)
    (hlen : hi ≤ d.length) (hps : PivotState key d lo hi a b c)
    (hlm : lo < m) (hmb : m < b) :
    ∃ out b' p, (do
        let l ← Less less d m lo
        if (!l) = true then do
            let d₁ ← Swap d m (b - 1)
            Except.ok (d₁, b - 1, c, p₁)
          else Except.ok (d, b, c, p₂)) = .ok (out, b', c, p) ∧
      Shuffled a hi d out ∧ PivotState key out lo hi a b' c := by
  have hloa := hps.lo_lt
  have hab := hps.a_le
  have hbc := hps.b_le
  have hchi := hps.c_le
  have hml : m < d.length := by omega
  have hbl : b - 1 < d.length := by omega
  rw [Less_eq hag hml (by omega)]
  simp only [ok_bind]
  by_cases hlt : key (elemAt d m) < key (elemAt d lo)
  · simp only [hlt, decide_True, Bool.not_true, Bool.false_eq_true, if_false]
    exact ⟨d, b, p₂, rfl, Shuffled.refl _ _ _, hps⟩
  · simp only [hlt, decide_False, Bool.not_false, if_true, Swap_eq hml hbl, ok_bind]
    have ham : a ≤ m := by
      by_contra h
      exact hlt (hps.smaller m hlm (by omega))
    have heq : key (elemAt d m) = key (elemAt d lo) :=
      le_antisymm (hps.notGreater m ham hmb) (not_lt.1 hlt)
    have hsh : Shuffled a hi d (exchanged d m (b - 1)) :=
      Shuffled.exchanged ham (by omega) (by omega) (by omega) hml hbl
    have hlo : elemAt (exchanged d m (b - 1)) lo = elemAt d lo := hsh.frame lo (Or.inl hloa)
    refine ⟨_, _, p₁, rfl, hsh, ⟨hloa, by omega, by omega, hchi, ?_, ?_, ?_, ?_⟩⟩
    · intro k hk1 hk2
      rw [hlo, elemAt_exchanged hml hbl]
      have e1 : k ≠ b - 1 := by omega
      have e2 : k ≠ m := by omega
      simp only [e1, e2, if_false]
      exact hps.smaller k hk1 hk2
    · intro k hk1 hk2
      rw [hlo, elemAt_exchanged hml hbl]
      have e1 : k ≠ b - 1 := by omega
      simp only [e1, if_false]
      by_cases e2 : k = m
      · simp only [e2, if_true]
        exact hps.notGreater (b - 1) (by omega) (by omega)
      · simp only [e2, if_false]
        exact hps.notGreater k hk1 (by omega)
    · intro k hk1 hk2
      rw [hlo, elemAt_exchanged hml hbl]
      by_cases e1 : k = b - 1
      · simp only [e1, if_true]
        exact heq
      · have e2 : k ≠ m := by omega
        simp only [e1, e2, if_false]
        exact hps.equal k (by omega) hk2
    · intro k hk1 hk2
      rw [hlo, elemAt_exchanged hml hbl]
      have e1 : k ≠ b - 1 := by omega
      have e2 : k ≠ m := by omega
      simp only [e1, e2, if_false]
      exact hps.notSmaller k hk1 hk2

/-- Second and third equality tests of `doPivot_func`. -/
theorem pivotDups_second {less : α → α → Except Panic Bool} {key : α → κ}
    {d : List α} (hag : Agrees less key d) {lo hi a m b c : Nat} (p₁ p₂ p₃ p₄ : Bool)
    (hlen : hi ≤ d.length) (hps : PivotState key d lo hi a b c)
    (hlm : lo < m) (hmb : m + 1 < b) :
    ∃ out b' p, (do
        let l ← Less less d (b - 1) lo
        if (!l) = true then do
            let l ← Less less d m lo
            if (!l) = true then do
                let d₁ ← Swap d m (b - 1 - 1)
                Except.ok (d₁, b - 1 - 1, c, p₁)
              else Except.ok (d, b - 1, c, p₂)
          else do
            let l ← Less less d m lo
            if (!l) = true then do
                let d₁ ← Swap d m (b - 1)
                Except.ok (d₁, b - 1, c, p₃)
              else Except.ok (d, b, c, p₄)) = .ok (out, b', c, p) ∧
      Shuffled a hi d out ∧ PivotState key out lo hi a b' c := by
  have hloa := hps.lo_lt
  have hab := hps.a_le
  have hbc := hps.b_le
  have hchi := hps.c_le
  rw [Less_eq hag (by omega) (by omega)]
  simp only [ok_bind]
  by_cases hlt : key (elemAt d (b - 1)) < key (elemAt d lo)
  · simp only [hlt, decide_True, Bool.not_true, Bool.false_eq_true, if_false]
    exact pivotDups_third hag p₃ p₄ hlen hps hlm (by omega)
  · simp only [hlt, decide_False, Bool.not_false, if_true]
    have hab' : a ≤ b - 1 := by
      by_contra h
      exact hlt (hps.smaller (b - 1) (by omega) (by omega))
    have hps' : PivotState key d lo hi a (b - 1) c :=
      ⟨hloa, hab', by omega, hchi, hps.smaller,
        fun k h1 h2 => hps.notGreater k h1 (by omega),
        fun k h1 h2 => by
          by_cases hk : k = b - 1
          · subst hk
            exact le_antisymm (hps.notGreater (b - 1) hab' (by omega)) (not_lt.1 hlt)
          · exact hps.equal k (by omega) h2,
        hps.notSmaller⟩
    exact pivotDups_third hag p₁ p₂ hlen hps' hlm (by omega)

theorem pivotDups_spec {less : α → α → Except Panic Bool} {key : α → κ}
    {data : List α} (hag : Agrees less key data) {lo hi a c : Nat}
    (hlen : hi ≤ data.length) (hps : PivotState key data lo hi a c c)
    (h5 : 5 ≤ hi - c) (h4 : hi - c < (hi - lo) / 4) :
    ∃ out b' c' p, pivotDups less data lo hi c c = .ok (out, b', c', p) ∧
      Shuffled a hi data out ∧ PivotState key out lo hi a b' c' := by
  have hloa := hps.lo_lt
  have hab := hps.a_le
  unfold pivotDups
  simp only []
  rw [Less_eq hag (by omega) (by omega)]
  simp only [ok_bind]
  by_cases h1 : key (elemAt data lo) < key (elemAt data (hi - 1))
  · simp only [h1, decide_True, Bool.not_true, Bool.false_eq_true, if_false, pure_eq_ok, ok_bind]
    obtain ⟨out, b', p, e, hsh, hps'⟩ := pivotDups_second hag
      (m := (lo + hi) / 2) (decide (1 < 0 + 1 + 1)) (decide (1 < 0 + 1)) (decide (1 < 0 + 1))
      (decide (1 < 0)) hlen hps (by omega) (by omega)
    exact ⟨out, b', c, p, e, hsh, hps'⟩
  · simp only [h1, decide_False, Bool.not_false, if_true, pure_eq_ok, ok_bind]
    have hcl : c < data.length := by omega
    have hhl : hi - 1 < data.length := by omega
    rw [Swap_eq hcl hhl]
    simp only [ok_bind]
    have hsh : Shuffled a hi data (exchanged data c (hi - 1)) :=
      Shuffled.exchanged (by omega) (by omega) (by omega) (by omega) hcl hhl
    have hlo : elemAt (exchanged data c (hi - 1)) lo = elemAt data lo :=
      hsh.frame lo (Or.inl hloa)
    have hps1 : PivotState key (exchanged data c (hi - 1)) lo hi a c (c + 1) := by
      refine ⟨hloa, hab, by omega, by omega, ?_, ?_, ?_, ?_⟩
      · intro k hk1 hk2
        rw [hlo, elemAt_exchanged hcl hhl]
        have e1 : k ≠ hi - 1 := by omega
        have e2 : k ≠ c := by omega
        simp only [e1, e2, if_false]
        exact hps.smaller k hk1 hk2
      · intro k hk1 hk2
        rw [hlo, elemAt_exchanged hcl hhl]
        have e1 : k ≠ hi - 1 := by omega
        have e2 : k ≠ c := by omega
        simp only [e1, e2, if_false]
        exact hps.notGreater k hk1 hk2
      · intro k hk1 hk2
        have hk : k = c := by omega
        subst hk
        rw [hlo, elemAt_exchanged hcl hhl]
        have e1 : k ≠ hi - 1 := by omega
        simp only [e1, if_false, if_true]
        exact le_antisymm (not_lt.1 h1) (hps.notSmaller (hi - 1) (by omega) (by omega))
      · intro k hk1 hk2
        rw [hlo, elemAt_exchanged hcl hhl]
        by_cases e1 : k = hi - 1
        · simp only [e1, if_true]
          exact hps.notSmaller c (le_refl _) (by omega)
        · have e2 : k ≠ c := by omega
          simp only [e1, e2, if_false]
          exact hps.notSmaller k (by omega) hk2
    obtain ⟨out, b', p, e, hsh', hps'⟩ := pivotDups_second
      (hag.of_perm hsh.perm) (m := (lo + hi) / 2) (decide (1 < 0 + 1 + 1 + 1))
      (decide (1 < 0 + 1 + 1)) (decide (1 < 0 + 1 + 1)) (decide (1 < 0 + 1))
      (by simpa using hlen) hps1 (by omega) (by omega)
    exact ⟨out, b', c + 1, p, e, hsh.trans hsh', hps'⟩

end sort

/-! ### Quicksort: `doPivot_func` -/

namespace sort
variable {α κ : Type} [Inhabited α] [LinearOrder κ]

theorem doPivot_func_spec {less : α → α → Except Panic Bool} {key : α → κ}
    {data : List α} (hag : Agrees less key data) {lo hi : Nat} (h12 : 12 < hi - lo)
    (hlen : hi ≤ data.length) :
    ∃ out mlo mhi, doPivot_func less data lo hi = .ok (out, mlo, mhi) ∧
      Shuffled lo hi data out ∧ lo ≤ mlo ∧ mlo < mhi ∧ mhi ≤ hi ∧
      (∀ k, lo ≤ k → k < mlo → key (elemAt out k) ≤ key (elemAt out mlo)) ∧
      (∀ k, mlo ≤ k → k < mhi → key (elemAt out k) = key (elemAt out mlo)) ∧
      (∀ k, mhi ≤ k → k < hi → key (elemAt out mlo) ≤ key (elemAt out k)) := by
  unfold doPivot_func
  simp only []
  obtain ⟨d0, e0, s0, hle0⟩ := pivotMedians_spec hag h12 hlen
  rw [e0]
  simp only [ok_bind]
  have hag0 := hag.of_perm s0.perm
  have hlen0 : hi ≤ d0.length := by rw [s0.length_eq]; exact hlen
  obtain ⟨a, ea, ha1, ha2, ha3, _⟩ := scanLess_spec less key hag0
    lo (hi - 1) (by omega) (by omega) (hi - 1 - (lo + 1)) (lo + 1)
    (by omega) (by omega)
  rw [ea]
  simp only [ok_bind]
  obtain ⟨d1, b1, e1, s1, hb1, hb2, hb3, hb4⟩ := partitionLoop_spec less key
    lo a hi (by omega) (hi - 1 - a + 1) d0 a (hi - 1) (by omega) (le_refl _) ha2 (le_refl _)
    hlen0 hag0 (fun k h1 h2 => by omega) (fun k h1 h2 => by omega)
  rw [e1]
  simp only [ok_bind]
  have hag1 := hag0.of_perm s1.perm
  have hlen1 : hi ≤ d1.length := by rw [s1.length_eq]; exact hlen0
  have hps1 : PivotState key d1 lo hi a b1 b1 := by
    have hlo : elemAt d1 lo = elemAt d0 lo := s1.frame lo (Or.inl (by omega))
    refine ⟨by omega, hb1, le_refl _, by omega, ?_, hb3, fun k h1 h2 => by omega, ?_⟩
    · intro k hk1 hk2
      rw [hlo, s1.frame k (Or.inl hk2)]
      exact ha3 k (by omega) hk2
    · intro k hk1 hk2
      by_cases hk : k < hi - 1
      · exact le_of_lt (hb4 k hk1 hk)
      · have hk' : k = hi - 1 := by omega
        subst hk'
        rw [hlo, s1.frame (hi - 1) (Or.inr (le_refl _))]
        exact hle0
  -- the state before the pivot is swapped into the middle
  have hmid : ∃ d b c, (do
        let (data, b, c, protect) ←
          if (!decide (hi - b1 < 5) && decide (hi - b1 < (hi - lo) / 4)) = true then
            pivotDups less d1 lo hi b1 b1
          else pure (d1, b1, b1, decide (hi - b1 < 5))
        let (data, b) ←
          if protect = true then do
            let (data, _, b) ← protectLoop less lo (b - a + 1) data a b
            pure (data, b)
          else pure (data, b)
        let data ← Swap data lo (b - 1)
        pure (data, b - 1, c)) = (do
          let data ← Swap d lo (b - 1)
          pure (data, b - 1, c)) ∧
      Shuffled lo hi d1 d ∧ lo < b ∧ b ≤ c ∧ c ≤ hi ∧
      (∀ k, lo < k → k < b → key (elemAt d k) ≤ key (elemAt d lo)) ∧
      (∀ k, b ≤ k → k < c → key (elemAt d k) = key (elemAt d lo)) ∧
      (∀ k, c ≤ k → k < hi → key (elemAt d lo) ≤ key (elemAt d k)) := by
    have step2 : ∀ (d2 : List α) (b2 c2 : Nat) (p2 : Bool), Shuffled a hi d1 d2 →
        PivotState key d2 lo hi a b2 c2 →
        ∃ d b c, (do
          let (data, b) ←
            if p2 = true then do
              let (data, _, b) ← protectLoop less lo (b2 - a + 1) d2 a b2
              pure (data, b)
            else pure (d2, b2)
          let data ← Swap data lo (b - 1)
          (pure (data, b - 1, c2) : Except Panic (List α × Nat × Nat))) = (do
            let data ← Swap d lo (b - 1)
            pure (data, b - 1, c)) ∧
        Shuffled lo hi d1 d ∧ lo < b ∧ b ≤ c ∧ c ≤ hi ∧
        (∀ k, lo < k → k < b → key (elemAt d k) ≤ key (elemAt d lo)) ∧
        (∀ k, b ≤ k → k < c → key (elemAt d k) = key (elemAt d lo)) ∧
        (∀ k, c ≤ k → k < hi → key (elemAt d lo) ≤ key (elemAt d k)) := by
      intro d2 b2 c2 p2 s2 hps2
      have hag2 := hag1.of_perm s2.perm
      have hlen2 : hi ≤ d2.length := by rw [s2.length_eq]; exact hlen1
      cases p2 with
      | false =>
        refine ⟨d2, b2, c2, ?_, s2.mono (by omega) (le_refl _), ?_, hps2.b_le, hps2.c_le, ?_,
          hps2.equal, hps2.notSmaller⟩
        · simp
        · have := hps2.lo_lt
          have := hps2.a_le
          omega
        · intro k hk1 hk2
          by_cases hka : k < a
          · exact le_of_lt (hps2.smaller k hk1 hka)
          · exact hps2.notGreater k (by omega) hk2
      | true =>
        obtain ⟨d3, a3, b3, e3, s3, hps3⟩ := protectLoop_spec less key
          lo hi c2 (b2 - a + 1) d2 a b2 (by omega) hlen2 hag2 hps2
        refine ⟨d3, b3, c2, ?_, ?_, hps3.lo_lt, hps3.b_le, hps3.c_le, ?_, hps3.equal,
          hps3.notSmaller⟩
        · simp [e3]
        · have h1 := hps2.lo_lt
          have h2 := hps2.b_le
          have h3 := hps2.c_le
          exact (s2.mono (by omega) (le_refl _)).trans (s3.mono (by omega) (by omega))
        · intro k hk1 hk2
          exact le_of_lt (hps3.smaller k hk1 hk2)
    by_cases hcond : (!decide (hi - b1 < 5) && decide (hi - b1 < (hi - lo) / 4)) = true
    · rw [if_pos hcond]
      have h5 : 5 ≤ hi - b1 := by
        simp at hcond
        omega
      have h4 : hi - b1 < (hi - lo) / 4 := by
        simp at hcond
        omega
      obtain ⟨d2, b2, c2, p2, e2, s2, hps2⟩ := pivotDups_spec
        hag1 hlen1 hps1 h5 h4
      rw [e2]
      simp only [ok_bind]
      exact step2 d2 b2 c2 p2 s2 hps2
    · rw [if_neg hcond]
      simp only [pure_eq_ok, ok_bind]
      exact step2 d1 b1 b1 _ (Shuffled.refl _ _ _) hps1
  obtain ⟨d, b, c, e, s, hb, hbc, hchi, hL, hE, hG⟩ := hmid
  rw [e]
  have hll : lo < d.length := by
    rw [s.length_eq, s1.length_eq, s0.length_eq]
    omega
  have hbl : b - 1 < d.length := by
    rw [s.length_eq, s1.length_eq, s0.length_eq]
    omega
  rw [Swap_eq hll hbl]
  simp only [ok_bind, pure_eq_ok]
  have hsw : Shuffled lo hi d (exchanged d lo (b - 1)) :=
    Shuffled.exchanged (le_refl _) (by omega) (by omega) (by omega) hll hbl
  have hpiv : elemAt (exchanged d lo (b - 1)) (b - 1) = elemAt d lo := by
    rw [elemAt_exchanged hll hbl]
    simp
  refine ⟨_, _, _, rfl, s0.trans ((s1.mono (by omega) (by omega)).trans (s.trans hsw)),
    by omega, by omega, hchi, ?_, ?_, ?_⟩
  · intro k hk1 hk2
    rw [hpiv, elemAt_exchanged hll hbl]
    have e1 : k ≠ b - 1 := by omega
    simp only [e1, if_false]
    by_cases e2 : k = lo
    · simp only [e2, if_true]
      exact hL (b - 1) (by omega) (by omega)
    · simp only [e2, if_false]
      exact hL k (by omega) (by omega)
  · intro k hk1 hk2
    rw [hpiv, elemAt_exchanged hll hbl]
    by_cases e1 : k = b - 1
    · simp only [e1, if_true]
    · have e2 : k ≠ lo := by omega
      simp only [e1, e2, if_false]
      exact hE k (by omega) hk2
  · intro k hk1 hk2
    rw [hpiv, elemAt_exchanged hll hbl]
    have e1 : k ≠ b - 1 := by omega
    have e2 : k ≠ lo := by omega
    simp only [e1, e2, if_false]
    exact hG k hk1 hk2

end sort

/-! ### Quicksort and `sort.Slice` -/

namespace sort
variable {α κ : Type} [Inhabited α] [LinearOrder κ]

theorem sortedOn_of_parts {key : α → κ} {out : List α} (a mlo mhi b : Nat) (pv : κ)
    (hL : ∀ k, a ≤ k → k < mlo → key (elemAt out k) ≤ pv)
    (hM : ∀ k, mlo ≤ k → k < mhi → key (elemAt out k) = pv)
    (hR : ∀ k, mhi ≤ k → k < b → pv ≤ key (elemAt out k))
    (hsL : SortedOn key a mlo out) (hsR : SortedOn key mhi b out) :
    SortedOn key a b out := by
  intro p q hp hpq hq
  have hple : p < mhi → key (elemAt out p) ≤ pv := by
    intro h
    by_cases h' : p < mlo
    · exact hL p hp h'
    · exact le_of_eq (hM p (by omega) h)
  have hqge : mlo ≤ q → pv ≤ key (elemAt out q) := by
    intro h
    by_cases h' : q < mhi
    · exact le_of_eq (hM q h h').symm
    · exact hR q (by omega) hq
  by_cases hq1 : q < mlo
  · exact hsL p q hp hpq hq1
  · by_cases hp1 : mhi ≤ p
    · exact hsR p q hp1 hpq hq
    · exact le_trans (hple (by omega)) (hqge (by omega))

theorem quickSort_func_spec (less : α → α → Except Panic Bool) (key : α → κ) :
    ∀ (maxDepth : Nat) (data : List α) (a b : Nat), b ≤ data.length →
      Agrees less key data →
      ∃ out, quickSort_func less maxDepth data a b = .ok out ∧ Shuffled a b data out ∧
        SortedOn key a b out := by
  intro maxDepth
  induction maxDepth with
  | zero =>
    intro data a b hb hag
    unfold quickSort_func
    by_cases h12 : 12 < b - a
    · rw [if_pos h12]
      exact heapSort_func_spec (by omega) hb hag
    · rw [if_neg h12]
      by_cases h1 : 1 < b - a
      · rw [if_pos h1]
        have hshell : ∃ mid, shellPass less (b - (a + 6)) (a + 6) data = .ok mid ∧
            Shuffled a b data mid := by
          by_cases h6 : a + 6 ≤ b
          · exact shellPass_spec less key a b (b - (a + 6)) (a + 6) data
              (by omega) (le_refl _) hb hag
          · have : b - (a + 6) = 0 := by omega
            rw [this]
            exact ⟨data, rfl, Shuffled.refl _ _ _⟩
        obtain ⟨mid, e, s⟩ := hshell
        rw [e]
        simp only [ok_bind]
        obtain ⟨out, e', s', hs⟩ := insertionSort_func_spec less key
          mid a b (by omega) (by rw [s.length_eq]; exact hb)
          (hag.of_perm s.perm)
        exact ⟨out, e', s.trans s', hs⟩
      · rw [if_neg h1]
        exact ⟨data, rfl, Shuffled.refl _ _ _, fun p q h1 h2 h3 => by omega⟩
  | succ d ih =>
    intro data a b hb hag
    unfold quickSort_func
    by_cases h12 : 12 < b - a
    · rw [if_pos h12]
      simp only []
      obtain ⟨dp, mlo, mhi, e, s, h1, h2, h3, hL, hM, hR⟩ :=
        doPivot_func_spec hag h12 hb
      rw [e]
      simp only [ok_bind]
      have hagp := hag.of_perm s.perm
      have hlenp : b ≤ dp.length := by rw [s.length_eq]; exact hb
      by_cases hside : mlo - a < b - mhi
      · rw [if_pos hside]
        obtain ⟨o1, e1, s1, hs1⟩ := ih dp a mlo (by omega) hagp
        rw [e1]
        simp only [ok_bind]
        obtain ⟨o2, e2, s2, hs2⟩ := ih o1 mhi b (by rw [s1.length_eq]; exact hlenp)
          (hagp.of_perm s1.perm)
        refine ⟨o2, e2, s.trans ((s1.mono (le_refl _) (by omega)).trans
          (s2.mono (by omega) (le_refl _))), ?_⟩
        have f2 : ∀ k, k < mhi → elemAt o2 k = elemAt o1 k := fun k hk => s2.frame k (Or.inl hk)
        have f1 : ∀ k, mlo ≤ k → elemAt o1 k = elemAt dp k := fun k hk => s1.frame k (Or.inr hk)
        refine sortedOn_of_parts a mlo mhi b (key (elemAt dp mlo)) ?_ ?_ ?_ ?_ hs2
        · intro k hk1 hk2
          rw [f2 k (by omega)]
          exact s1.window (fun x => key x ≤ key (elemAt dp mlo)) hL k hk1 hk2
        · intro k hk1 hk2
          rw [f2 k hk2, f1 k hk1]
          exact hM k hk1 hk2
        · intro k hk1 hk2
          refine s2.window (fun x => key (elemAt dp mlo) ≤ key x) ?_ k hk1 hk2
          intro k' hk1' hk2'
          show key (elemAt dp mlo) ≤ key (elemAt o1 k')
          rw [f1 k' (by omega)]
          exact hR k' hk1' hk2'
        · intro p q hp hpq hq
          rw [f2 p (by omega), f2 q (by omega)]
          exact hs1 p q hp hpq hq
      · rw [if_neg hside]
        obtain ⟨o1, e1, s1, hs1⟩ := ih dp mhi b hlenp hagp
        rw [e1]
        simp only [ok_bind]
        obtain ⟨o2, e2, s2, hs2⟩ := ih o1 a mlo (by rw [s1.length_eq]; omega)
          (hagp.of_perm s1.perm)
        refine ⟨o2, e2, s.trans ((s1.mono (by omega) (le_refl _)).trans
          (s2.mono (le_refl _) (by omega))), ?_⟩
        have f2 : ∀ k, mlo ≤ k → elemAt o2 k = elemAt o1 k := fun k hk => s2.frame k (Or.inr hk)
        have f1 : ∀ k, k < mhi → elemAt o1 k = elemAt dp k := fun k hk => s1.frame k (Or.inl hk)
        refine sortedOn_of_parts a mlo mhi b (key (elemAt dp mlo)) ?_ ?_ ?_ hs2 ?_
        · intro k hk1 hk2
          refine s2.window (fun x => key x ≤ key (elemAt dp mlo)) ?_ k hk1 hk2
          intro k' hk1' hk2'
          show key (elemAt o1 k') ≤ key (elemAt dp mlo)
          rw [f1 k' (by omega)]
          exact hL k' hk1' hk2'
        · intro k hk1 hk2
          rw [f2 k hk1, f1 k hk2]
          exact hM k hk1 hk2
        · intro k hk1 hk2
          rw [f2 k (by omega)]
          exact s1.window (fun x => key (elemAt dp mlo) ≤ key x) hR k hk1 hk2
        · intro p q hp hpq hq
          rw [f2 p (by omega), f2 q (by omega)]
          exact hs1 p q hp hpq hq
    · rw [if_neg h12]
      by_cases h1 : 1 < b - a
      · rw [if_pos h1]
        have hshell : ∃ mid, shellPass less (b - (a + 6)) (a + 6) data = .ok mid ∧
            Shuffled a b data mid := by
          by_cases h6 : a + 6 ≤ b
          · exact shellPass_spec less key a b (b - (a + 6)) (a + 6) data
              (by omega) (le_refl _) hb hag
          · have : b - (a + 6) = 0 := by omega
            rw [this]
            exact ⟨data, rfl, Shuffled.refl _ _ _⟩
        obtain ⟨mid, e, s⟩ := hshell
        rw [e]
        simp only [ok_bind]
        obtain ⟨out, e', s', hs⟩ := insertionSort_func_spec less key
          mid a b (by omega) (by rw [s.length_eq]; exact hb)
          (hag.of_perm s.perm)
        exact ⟨out, e', s.trans s', hs⟩
      · rw [if_neg h1]
        exact ⟨data, rfl, Shuffled.refl _ _ _, fun p q h1 h2 h3 => by omega⟩

/-- The call `sort.Slice` returns, and leaves a permutation of the slice in
non-decreasing order of the keys, whenever the comparison is the strict order
of a key on the elements of the slice. -/
theorem Slice_spec {less : α → α → Except Panic Bool} (key : α → κ) {slice : List α}
    (hag : Agrees less key slice) :
    ∃ out, Slice less slice = .ok out ∧ out.Perm slice ∧
      List.Pairwise (fun x y => key x ≤ key y) out := by
  unfold Slice
  obtain ⟨out, e, s, hs⟩ := quickSort_func_spec less key
    (maxDepth slice.length) slice 0 slice.length (le_refl _) hag
  refine ⟨out, e, s.perm, ?_⟩
  rw [List.pairwise_iff_getElem]
  intro i j hi hj hij
  have := hs i j (Nat.zero_le _) hij (by rw [← s.length_eq]; exact hj)
  simpa [elemAt, List.getElem?_eq_getElem hi, List.getElem?_eq_getElem hj] using this

end sort

/-! ### Order of equal elements under insertion sort -/

namespace sort
variable {α κ : Type}

theorem filter_adjacent_exchange (p : α → Bool) : ∀ (data : List α) (j : Nat) (x y : α),
    data[j]? = some x → data[j + 1]? = some y → (p x && p y) = false →
    ((data.set (j + 1) x).set j y).filter p = data.filter p
  | [], j, x, y, hx, _, _ => by simp at hx
  | [h], 0, x, y, _, hy, _ => by simp at hy
  | h :: h' :: t, 0, x, y, hx, hy, hp => by
    simp at hx hy
    subst hx hy
    cases hh : p h <;> cases hh' : p h' <;> simp_all [List.filter]
  | h :: t, j + 1, x, y, hx, hy, hp => by
    simp at hx hy
    have ih := filter_adjacent_exchange p t j x y hx hy hp
    simp only [List.set_cons_succ, List.filter_cons, ih]

variable [Inhabited α] [LinearOrder κ]

theorem insertionInner_stable (less : α → α → Except Panic Bool)
    (key : α → κ) (a : Nat) (p : α → Bool)
    (hp : ∀ x y, p x = true → p y = true → key x = key y) :
    ∀ (j : Nat) (data out : List α), Agrees less key data → j < data.length →
      insertionInner less a j data = .ok out →
      out.Perm data ∧
      out.filter p = data.filter p := by
  intro j
  induction j with
  | zero =>
    intro data out _ _ h
    simp [insertionInner] at h
    rw [h]
    exact ⟨List.Perm.refl _, rfl⟩
  | succ j ih =>
    intro data out hag hj h
    unfold insertionInner at h
    by_cases haj : a < j + 1
    · rw [if_pos haj, Less_eq hag hj (by omega)] at h
      simp only [ok_bind] at h
      by_cases hlt : key (elemAt data (j + 1)) < key (elemAt data j)
      · have hj0 : j < data.length := by omega
        simp only [hlt, decide_True, if_true, Swap_eq hj hj0, ok_bind] at h
        have hperm := exchanged_perm hj hj0
        obtain ⟨hpm, hf⟩ := ih (exchanged data (j + 1) j) out (hag.of_perm hperm)
          (by simpa using hj0) h
        refine ⟨hpm.trans hperm, ?_⟩
        rw [hf]
        unfold exchanged
        apply filter_adjacent_exchange _ data j _ _ (getElem?_eq_elemAt hj0)
          (getElem?_eq_elemAt hj)
        cases h1 : p (elemAt data j) with
        | false => rfl
        | true =>
          cases h2 : p (elemAt data (j + 1)) with
          | false => rfl
          | true =>
            rw [hp _ _ h2 h1] at hlt
            exact absurd hlt (lt_irrefl _)
      · simp only [hlt, decide_False, Bool.false_eq_true, if_false] at h
        cases h
        exact ⟨List.Perm.refl _, rfl⟩
    · rw [if_neg haj] at h
      cases h
      exact ⟨List.Perm.refl _, rfl⟩

theorem insertionOuter_stable (less : α → α → Except Panic Bool)
    (key : α → κ) (a : Nat) (p : α → Bool)
    (hp : ∀ x y, p x = true → p y = true → key x = key y) :
    ∀ (n i : Nat) (data out : List α), Agrees less key data → i + n ≤ data.length →
      insertionOuter less a n i data = .ok out →
      out.filter p = data.filter p := by
  intro n
  induction n with
  | zero =>
    intro i data out _ _ h
    simp [insertionOuter] at h
    rw [h]
  | succ n ih =>
    intro i data out hag hi h
    unfold insertionOuter at h
    cases hin : insertionInner less a i data with
    | error e =>
      rw [hin] at h
      cases h
    | ok mid =>
      rw [hin] at h
      simp only [ok_bind] at h
      obtain ⟨hpm, hf⟩ := insertionInner_stable less key a p hp i data mid
        hag (by omega) hin
      rw [ih (i + 1) mid out (hag.of_perm hpm) (by rw [hpm.length_eq]; omega) h, hf]

/-- On at most six elements `sort.Slice` is an insertion sort and keeps
elements with equal keys in their order. -/
theorem Slice_stable_of_length_le {less : α → α → Except Panic Bool} {key : α → κ}
    {slice out : List α} (hag : Agrees less key slice) (hlen : slice.length ≤ 6)
    (h : Slice less slice = .ok out) (p : α → Bool)
    (hp : ∀ x y, p x = true → p y = true → key x = key y) :
    out.filter p = slice.filter p := by
  unfold Slice quickSort_func at h
  have h12 : ¬ 12 < slice.length - 0 := by omega
  rw [if_neg h12] at h
  by_cases h1 : 1 < slice.length - 0
  · rw [if_pos h1] at h
    have h0 : slice.length - (0 + 6) = 0 := by omega
    rw [h0] at h
    simp only [shellPass, ok_bind] at h
    unfold insertionSort_func at h
    exact insertionOuter_stable less key 0 p hp _ _ slice out hag (by omega) h
  · rw [if_neg h1] at h
    cases h
    rfl

end sort

/-! ## Row ordering: `TableRows.Sort` -/

namespace component

theorem stringLess_eq (a b : String) : stringLess a b = decide (a < b) := by
  unfold stringLess
  exact decide_eq_decide.2 String.lt_iff_toList_lt.symm

theorem less_agrees (name : String) (t : TableRows)
    (h : ∀ row ∈ t, (row.index name).isSome = true) :
    sort.Agrees (TableRows.less name) (cellString name) t := by
  intro x hx y hy
  obtain ⟨cx, hcx⟩ := Option.isSome_iff_exists.1 (h x hx)
  obtain ⟨cy, hcy⟩ := Option.isSome_iff_exists.1 (h y hy)
  simp only [TableRows.less, cellString, hcx, hcy, callString, sort.ok_bind, sort.pure_eq_ok,
    Option.map_some', Option.getD_some, stringLess_eq]

theorem pairwise_stringLess {name : String} {t : TableRows}
    (h : List.Pairwise (fun r₁ r₂ => cellString name r₁ ≤ cellString name r₂) t) :
    List.Pairwise
      (fun r₁ r₂ => stringLess (cellString name r₂) (cellString name r₁) = false) t := by
  refine h.imp ?_
  intro r₁ r₂ hle
  rw [stringLess_eq]
  exact decide_eq_false (not_lt.2 hle)

/-- C1: for every row sequence in which every row has a cell at `name`,
`Sort(name)` returns (with a nil error) and leaves a rearrangement of the rows
in non-decreasing lexicographic order of the `String()` of their cell at
`name`: no row is followed by one whose `String()` at `name` is smaller in the
comparison `<` of Go strings. -/
theorem sort_orders_rows (t : TableRows) (name : String)
    (h : ∀ row ∈ t, (row.index name).isSome = true) :
    ∃ t', TableRows.Sort t name = .ok (t', none) ∧ t'.Perm t ∧
      List.Pairwise
        (fun r₁ r₂ => stringLess (cellString name r₂) (cellString name r₁) = false) t' := by
  obtain ⟨out, e, hp, hs⟩ := sort.Slice_spec (cellString name) (less_agrees name t h)
  exact ⟨out, by simp [TableRows.Sort, e], hp, pairwise_stringLess hs⟩

/-- Witness for C1: the two rows named `Bob`, `Alice` satisfy the hypothesis,
and their sort ends in the order `Alice`, `Bob`. -/
theorem sort_orders_rows_witness :
    (∀ row ∈ bobAlice, (row.index "name").isSome = true) ∧
    (∃ t', TableRows.Sort bobAlice "name" = .ok (t', none) ∧ t'.Perm bobAlice ∧
      List.Pairwise
        (fun r₁ r₂ => stringLess (cellString "name" r₂) (cellString "name" r₁) = false) t') ∧
    (TableRows.Sort bobAlice "name").map (fun r => r.1.map (cellString "name")) =
      .ok ["Alice", "Bob"] :=
  ⟨by decide, sort_orders_rows bobAlice "name" (by decide), rfl⟩

/-- C2, as stated, fails: sorting thirteen rows, twelve named `b` (numbered 1
to 12 in order) followed by one named `a`, leaves the rows named `b` in the
order 7, 3, 4, 5, 6, 2, 8, 9, 10, 11, 12, 1. -/
theorem sort_not_stable :
    (tieRows.filter (fun r => decide (cellString "name" r = "b"))).map (cellString "id") =
      ["1", "2", "3", "4", "5", "6", "7", "8", "9", "10", "11", "12"] ∧
    (TableRows.Sort tieRows "name").map
        (fun r => (r.1.filter (fun r => decide (cellString "name" r = "b"))).map
          (cellString "id")) =
      .ok ["7", "3", "4", "5", "6", "2", "8", "9", "10", "11", "12", "1"] :=
  ⟨by decide, rfl⟩

/-- C2, amended: on at most six rows, each with a cell at `name`, `Sort(name)`
returns and rows whose cells at `name` have equal `String()` keep their
relative order. -/
theorem sort_stable_up_to_six (t : TableRows) (name : String)
    (h : ∀ row ∈ t, (row.index name).isSome = true) (hlen : t.length ≤ 6) :
    ∃ t', TableRows.Sort t name = .ok (t', none) ∧ SameTieOrder name t t' := by
  obtain ⟨out, e, _, _⟩ := sort.Slice_spec (cellString name) (less_agrees name t h)
  refine ⟨out, by simp [TableRows.Sort, e], fun s => ?_⟩
  exact sort.Slice_stable_of_length_le (less_agrees name t h) hlen e _
    (fun x y hx hy => (of_decide_eq_true hx).trans (of_decide_eq_true hy).symm)

/-- Three rows named `b`, `a`, `b`, numbered in order. -/
theorem sort_stable_up_to_six_witness :
    (∀ row ∈ [namedRow "b" "1", namedRow "a" "2", namedRow "b" "3"],
      (row.index "name").isSome = true) ∧
    [namedRow "b" "1", namedRow "a" "2", namedRow "b" "3"].length ≤ 6 ∧
    (∃ t', TableRows.Sort [namedRow "b" "1", namedRow "a" "2", namedRow "b" "3"] "name" =
        .ok (t', none) ∧
      SameTieOrder "name" [namedRow "b" "1", namedRow "a" "2", namedRow "b" "3"] t') ∧
    (TableRows.Sort [namedRow "b" "1", namedRow "a" "2", namedRow "b" "3"] "name").map
        (fun r => r.1.map (cellString "id")) = .ok ["2", "1", "3"] :=
  ⟨by decide, by decide, sort_stable_up_to_six _ "name" (by decide) (by decide), rfl⟩

/-- C3: on two rows of which the second has no cell at `name`, `Sort(name)`
does not complete: calling `String()` on the absent cell panics. -/
theorem sort_panics_on_missing_cell :
    TableRows.Sort missingCell "name" = .error Panic.nilDereference := rfl

end component

/-! ## Encoding and the table operations -/

namespace component

/-- C4: whatever `Metadata.Type` a link or a table holds in memory,
`MarshalJSON` emits an envelope whose metadata type is the canonical tag of the
variant. -/
theorem marshal_emits_canonical_tag (P : Env) (l : Link) (t : Table) :
    envelopeType (l.MarshalJSON P) = some P.typeLink ∧
    envelopeType (t.MarshalJSON P) = some P.typeTable :=
  ⟨rfl, rfl⟩

/-- C9: after `t.Add(rs...)` the rows are the previous rows followed by `rs`,
in order, and the columns (and the rest of the table) are unchanged. -/
theorem add_appends_rows (t : Table) (rs : List TableRow) :
    (t.Add rs).Config.Rows = t.Config.Rows ++ rs ∧
    (t.Add rs).Config.Columns = t.Config.Columns ∧
    (t.Add rs).Config.EmptyContent = t.Config.EmptyContent ∧
    (t.Add rs).Metadata = t.Metadata :=
  ⟨rfl, rfl, rfl, rfl⟩

/-- C10: `IsEmpty` returns true if and only if the row sequence has length
zero, whatever the columns are. -/
theorem isEmpty_iff_no_rows (t : Table) :
    t.IsEmpty = true ↔ t.Config.Rows.length = 0 := by
  simp [Table.IsEmpty]

end component

/-! ## Decoding a row: `TableRow.UnmarshalJSON` -/

namespace component

theorem mapAssign_of_not_mem {V : Type} (m : List (String × V)) (k : String) (v : V)
    (h : k ∉ m.map Prod.fst) : mapAssign m k v = m ++ [(k, v)] := by
  unfold mapAssign
  have : m.any (fun kv => kv.1 == k) = false := by
    rw [List.any_eq_false]
    intro kv hkv heq
    exact h (List.mem_map.2 ⟨kv, hkv, by simpa using heq⟩)
  rw [this]
  simp

section range
variable {TypedObject ε : Type} (tc : TypedObject → Except ε Component)

theorem unmarshalRange_none_iff (x : List (String × TypedObject)) (t : TableRow) :
    (TableRow.unmarshalRange tc x t).2 = none ↔ ∀ kv ∈ x, ∃ c, tc kv.2 = .ok c := by
  induction x generalizing t with
  | nil => simp [TableRow.unmarshalRange]
  | cons kv rest ih =>
    obtain ⟨k, v⟩ := kv
    unfold TableRow.unmarshalRange
    cases h : tc v with
    | error e => simp [h]
    | ok c => simp [h, ih]

theorem unmarshalRange_fail (pre : List (String × TypedObject)) (k : String) (v : TypedObject)
    (post : List (String × TypedObject)) (e : ε) (t : TableRow)
    (hpre : ∀ kv ∈ pre, ∃ c, tc kv.2 = .ok c) (hv : tc v = .error e) :
    (TableRow.unmarshalRange tc (pre ++ (k, v) :: post) t).2 = some e := by
  induction pre generalizing t with
  | nil => simp [TableRow.unmarshalRange, hv]
  | cons kv rest ih =>
    obtain ⟨k', v'⟩ := kv
    obtain ⟨c, hc⟩ := hpre (k', v') (List.mem_cons_self _ _)
    simp only [List.cons_append, TableRow.unmarshalRange, hc]
    exact ih _ (fun kv hkv => hpre kv (List.mem_cons_of_mem _ hkv))

theorem unmarshalRange_ok (x : List (String × TypedObject)) (t : TableRow)
    (hnd : (t.map Prod.fst ++ x.map Prod.fst).Nodup)
    (h : (TableRow.unmarshalRange tc x t).2 = none) :
    ∃ cs, List.Forall₂ (DecodedFrom tc) x cs ∧ TableRow.unmarshalRange tc x t = (t ++ cs, none) := by
  induction x generalizing t with
  | nil => exact ⟨[], List.Forall₂.nil, by simp [TableRow.unmarshalRange]⟩
  | cons kv rest ih =>
    obtain ⟨k, v⟩ := kv
    unfold TableRow.unmarshalRange at h ⊢
    cases hc : tc v with
    | error e => simp [hc] at h
    | ok c =>
      simp only [hc] at h ⊢
      have hk : k ∉ t.map Prod.fst := by
        intro hmem
        have := List.nodup_append.1 hnd
        exact this.2.2 hmem (by simp)
      have hassign : TableRow.assign t k c = t ++ [(k, c)] := mapAssign_of_not_mem t k c hk
      rw [hassign] at h ⊢
      obtain ⟨cs, hcs, hres⟩ := ih (t ++ [(k, c)]) (by
        simp only [List.map_append, List.map_cons, List.map_nil, List.append_assoc,
          List.singleton_append]
        simpa using hnd) h
      refine ⟨(k, c) :: cs, List.Forall₂.cons ⟨rfl, hc⟩ hcs, ?_⟩
      rw [hres]
      simp

theorem unmarshalRange_fail_ok (pre : List (String × TypedObject)) (k : String)
    (v : TypedObject) (post : List (String × TypedObject)) (e : ε) (t : TableRow)
    (hnd : (t.map Prod.fst ++ pre.map Prod.fst).Nodup)
    (hpre : ∀ kv ∈ pre, ∃ c, tc kv.2 = .ok c) (hv : tc v = .error e) :
    ∃ cs, List.Forall₂ (DecodedFrom tc) pre cs ∧
      TableRow.unmarshalRange tc (pre ++ (k, v) :: post) t = (t ++ cs, some e) := by
  induction pre generalizing t with
  | nil => exact ⟨[], List.Forall₂.nil, by simp [TableRow.unmarshalRange, hv]⟩
  | cons kv rest ih =>
    obtain ⟨k', v'⟩ := kv
    obtain ⟨c, hc⟩ := hpre (k', v') (List.mem_cons_self _ _)
    have hk : k' ∉ t.map Prod.fst := by
      intro hmem
      have := List.nodup_append.1 hnd
      exact this.2.2 hmem (by simp)
    have hassign : TableRow.assign t k' c = t ++ [(k', c)] := mapAssign_of_not_mem t k' c hk
    obtain ⟨cs, hcs, hres⟩ := ih (t ++ [(k', c)]) (by
        simp only [List.map_append, List.map_cons, List.map_nil, List.append_assoc,
          List.singleton_append]
        simpa using hnd) (fun kv hkv => hpre kv (List.mem_cons_of_mem _ hkv))
    refine ⟨(k', c) :: cs, List.Forall₂.cons ⟨rfl, hc⟩ hcs, ?_⟩
    have hc' : tc v' = .ok c := hc
    simp only [List.cons_append, TableRow.unmarshalRange, hc', hassign]
    exact hres.trans (by simp)

theorem forall₂_keys {x : List (String × TypedObject)} {cs : TableRow}
    (h : List.Forall₂ (DecodedFrom tc) x cs) : cs.map Prod.fst = x.map Prod.fst := by
  induction h with
  | nil => rfl
  | cons hd _ ih => simp [hd.1, ih]

theorem forall₂_index {x : List (String × TypedObject)} {cs : TableRow}
    (h : List.Forall₂ (DecodedFrom tc) x cs) (hnd : (x.map Prod.fst).Nodup) :
    ∀ kv ∈ x, ∃ c, tc kv.2 = .ok c ∧ TableRow.index cs kv.1 = some c := by
  induction h with
  | nil => intro kv hkv; cases hkv
  | @cons kv kc x' cs' hd htl ih =>
    intro kv' hkv'
    obtain ⟨k, v⟩ := kv
    obtain ⟨k₁, c₁⟩ := kc
    have hk : k₁ = k := hd.1
    subst hk
    simp only [List.map_cons, List.nodup_cons] at hnd
    rcases List.mem_cons.1 hkv' with heq | hmem
    · subst heq
      exact ⟨c₁, hd.2, by simp [TableRow.index, List.lookup]⟩
    · obtain ⟨c, hc, hidx⟩ := ih hnd.2 kv' hmem
      refine ⟨c, hc, ?_⟩
      have hne : kv'.1 ≠ k₁ := by
        intro h
        exact hnd.1 (h ▸ List.mem_map.2 ⟨kv', hmem, rfl⟩)
      simp only [TableRow.index, List.lookup] at hidx ⊢
      have : (kv'.1 == k₁) = false := by simpa using hne
      rw [this]
      exact hidx

end range

section unmarshal
variable {Data TypedObject ε : Type}
  (ju : Data → Except ε (List (String × TypedObject)))
  (tc : TypedObject → Except ε Component)

/-- C5: `TableRow.UnmarshalJSON` succeeds exactly when the input parses as a
mapping and `ToComponent` succeeds for every entry; it returns the error of the
first entry that fails to decode; and on success the keys of the row are the
accessors of the input (pairwise distinct, as in a map), each mapped to the
component `ToComponent` returned for that entry. -/
theorem unmarshalJSON_succeeds_iff (t : TableRow) (data : Data) :
    ((TableRow.UnmarshalJSON ju tc t data).2 = none ↔
      ∃ x, ju data = .ok x ∧ ∀ kv ∈ x, ∃ c, tc kv.2 = .ok c) ∧
    (∀ pre k v post e, ju data = .ok (pre ++ (k, v) :: post) →
      (∀ kv ∈ pre, ∃ c, tc kv.2 = .ok c) → tc v = .error e →
      (TableRow.UnmarshalJSON ju tc t data).2 = some e) ∧
    (∀ x, ju data = .ok x → (x.map Prod.fst).Nodup →
      (TableRow.UnmarshalJSON ju tc t data).2 = none →
      (TableRow.UnmarshalJSON ju tc t data).1.map Prod.fst = x.map Prod.fst ∧
      ∀ kv ∈ x, ∃ c, tc kv.2 = .ok c ∧
        (TableRow.UnmarshalJSON ju tc t data).1.index kv.1 = some c) := by
  refine ⟨?_, ?_, ?_⟩
  · unfold TableRow.UnmarshalJSON
    cases h : ju data with
    | error e => simp
    | ok x => simp [unmarshalRange_none_iff]
  · intro pre k v post e hx hpre hv
    simp only [TableRow.UnmarshalJSON, hx]
    exact unmarshalRange_fail tc pre k v post e [] hpre hv
  · intro x hx hnd hnone
    simp only [TableRow.UnmarshalJSON, hx] at hnone ⊢
    obtain ⟨cs, hcs, hres⟩ := unmarshalRange_ok tc x [] (by simpa using hnd) hnone
    rw [hres]
    simp only [List.nil_append]
    exact ⟨forall₂_keys tc hcs, forall₂_index tc hcs hnd⟩

/-- C6, amended: when a cell fails to decode, the receiver is left holding
exactly the cells decoded before the failing one (in a map, with pairwise
distinct accessors); what the receiver held before the call is discarded. -/
theorem unmarshalJSON_failure_keeps_decoded_cells (t : TableRow) (data : Data)
    (pre : List (String × TypedObject)) (k : String) (v : TypedObject)
    (post : List (String × TypedObject)) (e : ε)
    (hx : ju data = .ok (pre ++ (k, v) :: post)) (hnd : (pre.map Prod.fst).Nodup)
    (hpre : ∀ kv ∈ pre, ∃ c, tc kv.2 = .ok c) (hv : tc v = .error e) :
    ∃ cs, List.Forall₂ (DecodedFrom tc) pre cs ∧
      TableRow.UnmarshalJSON ju tc t data = (cs, some e) := by
  simp only [TableRow.UnmarshalJSON, hx]
  obtain ⟨cs, hcs, hres⟩ := unmarshalRange_fail_ok tc pre k v post e [] (by simpa using hnd)
    hpre hv
  exact ⟨cs, hcs, by simpa using hres⟩

/-- C7, amended: when a cell fails to decode, the error returned by
`TableRow.UnmarshalJSON` is the error `ToComponent` returned for that cell,
unchanged: it is not wrapped and does not depend on the accessor. -/
theorem unmarshalJSON_returns_cell_error (t : TableRow) (data : Data)
    (pre : List (String × TypedObject)) (k : String) (v : TypedObject)
    (post : List (String × TypedObject)) (e : ε)
    (hx : ju data = .ok (pre ++ (k, v) :: post))
    (hpre : ∀ kv ∈ pre, ∃ c, tc kv.2 = .ok c) (hv : tc v = .error e) :
    (TableRow.UnmarshalJSON ju tc t data).2 = some e := by
  simp only [TableRow.UnmarshalJSON, hx]
  exact unmarshalRange_fail tc pre k v post e [] hpre hv

end unmarshal

end component

/-! ### A row with a cell that fails to decode -/

namespace component

/-- C6, as stated, fails: decoding a row whose first cell is a link and whose
second cell carries an unregistered tag returns the error of the second cell
and leaves the first cell in the receiver. -/
theorem unmarshalJSON_leaves_decoded_cell :
    TableRow.UnmarshalJSON unmarshalTypedObjects (ToComponent sampleEnv 1) []
        (brokenRowJson "a" "b") =
      ([("a", sampleLink "x")], some (DecodeError.UnknownVariant "bogus")) :=
  rfl

/-- Witness for the amended C6, on the row of `unmarshalJSON_leaves_decoded_cell`
and a receiver that held a stale cell before the call. -/
theorem unmarshalJSON_failure_keeps_decoded_cells_witness :
    unmarshalTypedObjects (brokenRowJson "a" "b") =
      .ok ([("a", linkObject)] ++ ("b", bogusObject) :: []) ∧
    (([("a", linkObject)] : List (String × TypedObject)).map Prod.fst).Nodup ∧
    (∀ kv ∈ ([("a", linkObject)] : List (String × TypedObject)),
      ∃ c, ToComponent sampleEnv 1 kv.2 = .ok c) ∧
    ToComponent sampleEnv 1 bogusObject = .error (DecodeError.UnknownVariant "bogus") ∧
    ∃ cs, List.Forall₂ (DecodedFrom (ToComponent sampleEnv 1)) [("a", linkObject)] cs ∧
      TableRow.UnmarshalJSON unmarshalTypedObjects (ToComponent sampleEnv 1)
        [("old", sampleLink "stale")] (brokenRowJson "a" "b") =
        (cs, some (DecodeError.UnknownVariant "bogus")) :=
  have hpre : ∀ kv ∈ ([("a", linkObject)] : List (String × TypedObject)),
      ∃ c, ToComponent sampleEnv 1 kv.2 = .ok c := by
    intro kv hkv
    rw [List.mem_singleton] at hkv
    subst hkv
    exact ⟨_, rfl⟩
  ⟨rfl, by decide, hpre, rfl,
    unmarshalJSON_failure_keeps_decoded_cells unmarshalTypedObjects (ToComponent sampleEnv 1)
      [("old", sampleLink "stale")] (brokenRowJson "a" "b") [("a", linkObject)] "b" bogusObject
      [] (DecodeError.UnknownVariant "bogus") rfl (by decide) hpre rfl⟩

/-- C7, as stated, fails: the error returned for a row whose cell at `b` fails
to decode is the error of `ToComponent` itself, not a nested-decode failure
around it, and it is the same error when the failing cell is at `c`. -/
theorem unmarshalJSON_error_not_nested :
    ToComponent sampleEnv 1 bogusObject = .error (DecodeError.UnknownVariant "bogus") ∧
    (TableRow.UnmarshalJSON unmarshalTypedObjects (ToComponent sampleEnv 1) []
      (brokenRowJson "a" "b")).2 = some (DecodeError.UnknownVariant "bogus") ∧
    (TableRow.UnmarshalJSON unmarshalTypedObjects (ToComponent sampleEnv 1) []
      (brokenRowJson "a" "c")).2 = some (DecodeError.UnknownVariant "bogus") ∧
    ∀ accessor cause,
      (TableRow.UnmarshalJSON unmarshalTypedObjects (ToComponent sampleEnv 1) []
        (brokenRowJson "a" "b")).2 ≠ some (DecodeError.NestedDecodeFailure accessor cause) :=
  ⟨rfl, rfl, rfl, fun _ _ h => by cases h⟩

/-- Witness for the amended C7, on the row of `unmarshalJSON_error_not_nested`. -/
theorem unmarshalJSON_returns_cell_error_witness :
    unmarshalTypedObjects (brokenRowJson "a" "b") =
      .ok ([("a", linkObject)] ++ ("b", bogusObject) :: []) ∧
    (∀ kv ∈ ([("a", linkObject)] : List (String × TypedObject)),
      ∃ c, ToComponent sampleEnv 1 kv.2 = .ok c) ∧
    ToComponent sampleEnv 1 bogusObject = .error (DecodeError.UnknownVariant "bogus") ∧
    (TableRow.UnmarshalJSON unmarshalTypedObjects (ToComponent sampleEnv 1) []
      (brokenRowJson "a" "b")).2 = some (DecodeError.UnknownVariant "bogus") :=
  have hpre : ∀ kv ∈ ([("a", linkObject)] : List (String × TypedObject)),
      ∃ c, ToComponent sampleEnv 1 kv.2 = .ok c := by
    intro kv hkv
    rw [List.mem_singleton] at hkv
    subst hkv
    exact ⟨_, rfl⟩
  ⟨rfl, hpre, rfl,
    unmarshalJSON_returns_cell_error unmarshalTypedObjects (ToComponent sampleEnv 1)
      [] (brokenRowJson "a" "b") [("a", linkObject)] "b" bogusObject
      [] (DecodeError.UnknownVariant "bogus") rfl hpre rfl⟩

end component

/-! ## Round trip through the envelope -/

namespace component

theorem decodeCols_json (cols : List TableCol) :
    decodeCols (cols.map TableCol.json) = .ok cols := by
  induction cols with
  | nil => rfl
  | cons c cs ih =>
    simp only [List.map_cons, decodeCols, ih]
    rfl

theorem link_eta (l : Link) (typ : String) (h : l.Metadata.Typ = typ) :
    ({ Metadata := { Typ := typ, Title := l.Metadata.Title }
       Config := { Text := l.Config.Text, Ref := l.Config.Ref } } : Link) = l := by
  obtain ⟨⟨⟨ty, ti⟩⟩, ⟨tx, rf⟩⟩ := l
  simp only at h
  subst h
  rfl

theorem sorted_perm (row : TableRow) : row.sorted.Perm row :=
  List.perm_insertionSort _ row

theorem sorted_sorted (row : TableRow) : row.sorted.sorted = row.sorted := by
  haveI : IsTotal (String × Component) (fun a b => stringLess b.1 a.1 = false) :=
    ⟨fun a b => by
      simp only [stringLess_eq, decide_eq_false_iff_not, not_lt]
      exact le_total a.1 b.1⟩
  haveI : IsTrans (String × Component) (fun a b => stringLess b.1 a.1 = false) :=
    ⟨fun a b c hab hbc => by
      simp only [stringLess_eq, decide_eq_false_iff_not, not_lt] at hab hbc ⊢
      exact le_trans hab hbc⟩
  exact List.Sorted.insertionSort_eq (List.sorted_insertionSort _ row)

theorem json_sorted (row : TableRow) : TableRow.json row.sorted = TableRow.json row := by
  simp only [TableRow.json, sorted_sorted]

theorem lookup_eq_some_iff_mem {V : Type} (k : String) (c : V) :
    ∀ (l : List (String × V)), (l.map Prod.fst).Nodup → (l.lookup k = some c ↔ (k, c) ∈ l)
  | [], _ => by simp
  | (k', c') :: rest, hnd => by
    rw [List.map_cons, List.nodup_cons] at hnd
    have ih := lookup_eq_some_iff_mem k c rest hnd.2
    by_cases hk : k = k'
    · subst hk
      have hnot : (k, c) ∉ rest := fun hmem => hnd.1 (List.mem_map.2 ⟨(k, c), hmem, rfl⟩)
      simp only [List.lookup, beq_self_eq_true, Option.some.injEq, List.mem_cons,
        Prod.mk.injEq, true_and, hnot, or_false]
      exact eq_comm
    · have hbeq : (k == k') = false := by simpa using hk
      simp only [List.lookup, hbeq, ih, List.mem_cons, Prod.mk.injEq, hk, false_and, false_or]

theorem index_eq_of_perm {row row' : TableRow} (hp : row'.Perm row)
    (hnd : (row.map Prod.fst).Nodup) (name : String) : row'.index name = row.index name := by
  have hnd' : (row'.map Prod.fst).Nodup := ((hp.map Prod.fst).nodup_iff).2 hnd
  apply Option.ext
  intro c
  simp only [TableRow.index, Option.mem_def, lookup_eq_some_iff_mem name c row hnd,
    lookup_eq_some_iff_mem name c row' hnd', hp.mem_iff]

theorem decodeSlice_json {α : Type} (elems : List Json → Except DecodeError (List α))
    (isNil : Bool) (js : List Json) (xs : List α) (helems : elems js = .ok xs)
    (hnil : isNil = true → xs = []) :
    decodeSlice elems (sliceJson isNil js) = .ok (isNil, xs) := by
  cases isNil with
  | true => rw [hnil rfl]; rfl
  | false =>
    have h : decodeSlice elems (.arr js) = (do let ys ← elems js; pure (false, ys)) := rfl
    have hs : sliceJson false js = .arr js := rfl
    rw [hs, h, helems]
    rfl

/-- The table rebuilt from the decoded payload is the encoded table as a
component: its rows hold the same entries, listed by key. -/
theorem table_eta (P : Env) (t : Table) (h : t.Metadata.Typ = P.typeTable) :
    Table.toComponent P
      { Metadata := { Typ := P.typeTable, Title := t.Metadata.Title }
        Config := { Columns := t.Config.Columns, nilColumns := t.Config.nilColumns
                    Rows := t.Config.Rows.map TableRow.sorted, nilRows := t.Config.nilRows
                    EmptyContent := t.Config.EmptyContent } } = t.toComponent P := by
  obtain ⟨⟨⟨ty, ti⟩⟩, ⟨c, r, e, nc, nr⟩⟩ := t
  simp only at h
  subst h
  simp only [Table.toComponent, Table.MarshalJSON, tableMarshal.json, List.map_map,
    Function.comp_def, json_sorted]

theorem unmarshalMembers_json (cell : TypedObject → Except DecodeError Component) :
    ∀ (row : TableRow) (acc : List (String × TypedObject)), CellsDecode cell row →
      (acc.map Prod.fst ++ row.map Prod.fst).Nodup →
      ∃ x, unmarshalMembers (row.map (fun kv => (kv.1, kv.2.MarshalJSON))) acc =
          .ok (acc ++ x) ∧
        List.Forall₂ (DecodedFrom cell) x row
  | [], acc, _, _ => ⟨[], by simp [unmarshalMembers], List.Forall₂.nil⟩
  | (k, c) :: rest, acc, hcells, hnd => by
    obtain ⟨o, ho, hco⟩ := hcells (k, c) (List.mem_cons_self _ _)
    have hk : k ∉ acc.map Prod.fst := by
      intro hmem
      exact (List.nodup_append.1 hnd).2.2 hmem (by simp)
    obtain ⟨x, hx, hf⟩ := unmarshalMembers_json cell rest (acc ++ [(k, o)])
      (fun kv hkv => hcells kv (List.mem_cons_of_mem _ hkv))
      (by
        simp only [List.map_append, List.map_cons, List.map_nil, List.append_assoc,
          List.singleton_append]
        simpa using hnd)
    refine ⟨(k, o) :: x, ?_, List.Forall₂.cons ⟨rfl, hco⟩ hf⟩
    have ho' : parseTypedObject c.MarshalJSON = .ok o := ho
    simp only [List.map_cons, unmarshalMembers, ho', sort.ok_bind,
      mapAssign_of_not_mem acc k o hk]
    exact hx.trans (by simp)

theorem unmarshalRange_decoded (cell : TypedObject → Except DecodeError Component) :
    ∀ (x : List (String × TypedObject)) (row t : TableRow),
      List.Forall₂ (DecodedFrom cell) x row → (t.map Prod.fst ++ row.map Prod.fst).Nodup →
      TableRow.unmarshalRange cell x t = (t ++ row, none)
  | [], row, t, h, _ => by
    cases h
    simp [TableRow.unmarshalRange]
  | (k, o) :: x, row, t, h, hnd => by
    cases h with
    | @cons _ kc _ row' hd htl =>
      obtain ⟨k', c⟩ := kc
      have hk' : k' = k := hd.1
      subst hk'
      have hc : cell o = .ok c := hd.2
      have hk : k' ∉ t.map Prod.fst := by
        intro hmem
        exact (List.nodup_append.1 hnd).2.2 hmem (by simp)
      have hassign : TableRow.assign t k' c = t ++ [(k', c)] := mapAssign_of_not_mem t k' c hk
      simp only [TableRow.unmarshalRange, hc, hassign]
      exact (unmarshalRange_decoded cell x row' (t ++ [(k', c)]) htl (by
        simp only [List.map_append, List.map_cons, List.map_nil, List.append_assoc,
          List.singleton_append]
        simpa using hnd)).trans (by simp)

theorem unmarshalJSON_json (cell : TypedObject → Except DecodeError Component)
    (row t : TableRow) (hcells : CellsDecode cell row) (hnd : (row.map Prod.fst).Nodup) :
    TableRow.UnmarshalJSON unmarshalTypedObjects cell t (TableRow.json row) =
      (row.sorted, none) := by
  have hp := sorted_perm row
  have hnd' : (row.sorted.map Prod.fst).Nodup := ((hp.map Prod.fst).nodup_iff).2 hnd
  have hcells' : CellsDecode cell row.sorted := fun kv hkv => hcells kv (hp.mem_iff.1 hkv)
  obtain ⟨x, hx, hf⟩ := unmarshalMembers_json cell row.sorted [] hcells' (by simpa using hnd')
  simp only [TableRow.UnmarshalJSON, TableRow.json, unmarshalTypedObjects, hx, List.nil_append]
  simpa using unmarshalRange_decoded cell x row.sorted [] hf (by simpa using hnd')

theorem decodeRows_json (cell : TypedObject → Except DecodeError Component) :
    ∀ (rows : TableRows), (∀ row ∈ rows, (row.map Prod.fst).Nodup ∧ CellsDecode cell row) →
      decodeRows cell (rows.map TableRow.json) = .ok (rows.map TableRow.sorted)
  | [], _ => rfl
  | row :: rest, h => by
    have h1 := h row (List.mem_cons_self _ _)
    simp only [List.map_cons, decodeRows, unmarshalJSON_json cell row [] h1.2 h1.1,
      decodeRows_json cell rest (fun r hr => h r (List.mem_cons_of_mem _ hr))]
    rfl

/-- A valid component is encoded as an envelope that decodes to itself. -/
theorem toComponent_marshal (P : Env) (htags : P.typeLink ≠ P.typeTable) :
    ∀ (d : Nat) (v : Component), ValidAt P d v →
      ∃ o, parseTypedObject v.MarshalJSON = .ok o ∧
        ∀ depth, d ≤ depth → ToComponent P depth o = .ok v
  | 0, _, h => by cases h
  | d + 1, v, h => by
    rcases h with ⟨l, hl, rfl⟩ | ⟨t, ht, hwf, hrows, rfl⟩
    · refine ⟨{ Metadata := { Typ := P.typeLink, Title := l.Metadata.Title }
                Config := .obj [("value", .str l.Config.Text), ("ref", .str l.Config.Ref)] },
        rfl, ?_⟩
      intro depth hd
      obtain ⟨depth', rfl⟩ : ∃ n, depth = n + 1 := ⟨depth - 1, by omega⟩
      simp only [ToComponent, if_true]
      have : decodeLink P
          { Metadata := { Typ := P.typeLink, Title := l.Metadata.Title }
            Config := .obj [("value", .str l.Config.Text), ("ref", .str l.Config.Ref)] } =
          .ok (Link.toComponent P
            { Metadata := { Typ := P.typeLink, Title := l.Metadata.Title }
              Config := { Text := l.Config.Text, Ref := l.Config.Ref } }) := rfl
      rw [this, link_eta l P.typeLink hl]
    · refine ⟨{ Metadata := { Typ := P.typeTable, Title := t.Metadata.Title }
                Config := .obj [("columns", sliceJson t.Config.nilColumns
                                              (t.Config.Columns.map TableCol.json)),
                                ("rows", sliceJson t.Config.nilRows
                                           (t.Config.Rows.map TableRow.json)),
                                ("emptyContent", .str t.Config.EmptyContent)] },
        rfl, ?_⟩
      intro depth hd
      obtain ⟨depth', rfl⟩ : ∃ n, depth = n + 1 := ⟨depth - 1, by omega⟩
      have hne : ¬ P.typeTable = P.typeLink := fun h => htags h.symm
      simp only [ToComponent, hne, if_false, if_true]
      have hcells : ∀ row ∈ t.Config.Rows,
          (row.map Prod.fst).Nodup ∧ CellsDecode (ToComponent P depth') row := by
        intro row hrow
        refine ⟨(hrows row hrow).1, fun kv hkv => ?_⟩
        obtain ⟨o, ho, hdec⟩ := toComponent_marshal P htags d kv.2 ((hrows row hrow).2 kv hkv)
        exact ⟨o, ho, hdec depth' (by omega)⟩
      have hdecode : decodeTable P (ToComponent P depth')
          { Metadata := { Typ := P.typeTable, Title := t.Metadata.Title }
            Config := .obj [("columns", sliceJson t.Config.nilColumns
                                          (t.Config.Columns.map TableCol.json)),
                            ("rows", sliceJson t.Config.nilRows
                                       (t.Config.Rows.map TableRow.json)),
                            ("emptyContent", .str t.Config.EmptyContent)] } =
          (do
            let cols ← decodeSlice decodeCols
              (sliceJson t.Config.nilColumns (t.Config.Columns.map TableCol.json))
            let rows ← decodeSlice (decodeRows (ToComponent P depth'))
              (sliceJson t.Config.nilRows (t.Config.Rows.map TableRow.json))
            pure (Table.toComponent P
              { Metadata := { Typ := P.typeTable, Title := t.Metadata.Title }
                Config := { Columns := cols.2, nilColumns := cols.1
                            Rows := rows.2, nilRows := rows.1
                            EmptyContent := t.Config.EmptyContent } })) := rfl
      rw [hdecode,
        decodeSlice_json decodeCols _ _ _ (decodeCols_json t.Config.Columns) hwf.1,
        decodeSlice_json (decodeRows (ToComponent P depth')) _ _ _
          (decodeRows_json _ _ hcells) (fun h => by rw [hwf.2 h]; rfl)]
      simp only [sort.ok_bind, sort.pure_eq_ok]
      rw [table_eta P t ht]

/-- C8: with distinct tags for links and tables, every valid link or table `v`
(of nesting depth at most `d`, decoded with at least that depth; the slices of
a table may be nil, in which case `MarshalJSON` writes `null`) round-trips:
decoding the output of its `MarshalJSON` yields a component with the same
`String()` and `Metadata.Type`; decoding an encoded row of valid cells with
`TableRow.UnmarshalJSON` returns no error and yields a row with the same
entries, so with the same cell at every accessor; and decoding `null`, the
encoding of a nil row, yields the row without entries. -/
theorem decode_marshal_round_trip (P : Env) (htags : P.typeLink ≠ P.typeTable)
    (d depth : Nat) (hd : d ≤ depth) :
    (∀ v, ValidAt P d v →
      ∃ v', decode P depth v.MarshalJSON = .ok v' ∧ v'.String = v.String ∧
        v'.GetMetadata.Typ = v.GetMetadata.Typ) ∧
    (∀ (row receiver : TableRow), (row.map Prod.fst).Nodup →
      (∀ kv ∈ row, ValidAt P d kv.2) →
      ∃ row', TableRow.UnmarshalJSON unmarshalTypedObjects (ToComponent P depth) receiver
          (TableRow.json row) = (row', none) ∧
        row'.Perm row ∧ ∀ name, row'.index name = row.index name) ∧
    (∀ receiver : TableRow,
      TableRow.UnmarshalJSON unmarshalTypedObjects (ToComponent P depth) receiver .null =
        ([], none)) := by
  refine ⟨?_, ?_, fun _ => rfl⟩
  · intro v hv
    obtain ⟨o, ho, hdec⟩ := toComponent_marshal P htags d v hv
    exact ⟨v, by simp only [decode, ho, sort.ok_bind, hdec depth hd], rfl, rfl⟩
  · intro row receiver hnd hcells
    refine ⟨row.sorted, unmarshalJSON_json _ row receiver ?_ hnd, sorted_perm row,
      index_eq_of_perm (sorted_perm row) hnd⟩
    intro kv hkv
    obtain ⟨o, ho, hdec⟩ := toComponent_marshal P htags d kv.2 (hcells kv hkv)
    exact ⟨o, ho, hdec depth hd⟩

theorem sampleTable_valid : ValidAt sampleEnv 3 (sampleTable.toComponent sampleEnv) := by
  refine Or.inr ⟨sampleTable, rfl, ⟨fun h => (by cases h), fun h => (by cases h)⟩, ?_, rfl⟩
  intro row hrow
  simp only [sampleTable, NewTableWithRows, NewTable, Table.Add, List.nil_append,
    List.mem_cons, List.mem_singleton, List.not_mem_nil, or_false] at hrow
  rcases hrow with rfl | rfl
  · refine ⟨by decide, fun kv hkv => ?_⟩
    rw [List.mem_singleton] at hkv
    subst hkv
    exact Or.inl ⟨_, rfl, rfl⟩
  · refine ⟨by decide, fun kv hkv => ?_⟩
    simp only [List.mem_cons, List.mem_singleton, List.not_mem_nil, or_false] at hkv
    rcases hkv with rfl | rfl
    · exact Or.inl ⟨_, rfl, rfl⟩
    · refine Or.inr ⟨_, rfl, ⟨fun _ => rfl, fun h => by cases h⟩, ?_, rfl⟩
      intro row' hrow'
      simp only [NewTableWithRows, NewTable, Table.Add, List.nil_append,
        List.mem_singleton] at hrow'
      subst hrow'
      refine ⟨by decide, fun kv hkv => ?_⟩
      rw [List.mem_singleton] at hkv
      subst hkv
      exact Or.inl ⟨_, rfl, rfl⟩

theorem nameTable_valid : ValidAt sampleEnv 1 (nameTable.toComponent sampleEnv) :=
  Or.inr ⟨nameTable, rfl, ⟨fun h => (by cases h), fun _ => rfl⟩,
    fun _ hrow => (by cases hrow), rfl⟩

/-- Witness for C8: the sample environment has distinct tags, and the sample
table, whose second row holds a nested table without columns, round-trips; so
does the table `nameTable`, whose rows are the nil slice and are written as
`null`. -/
theorem decode_marshal_round_trip_witness :
    sampleEnv.typeLink ≠ sampleEnv.typeTable ∧ 3 ≤ 3 ∧
    ValidAt sampleEnv 3 (sampleTable.toComponent sampleEnv) ∧
    (∃ v', decode sampleEnv 3 (sampleTable.toComponent sampleEnv).MarshalJSON = .ok v' ∧
      v'.String = (sampleTable.toComponent sampleEnv).String ∧
      v'.GetMetadata.Typ = (sampleTable.toComponent sampleEnv).GetMetadata.Typ) ∧
    ValidAt sampleEnv 1 (nameTable.toComponent sampleEnv) ∧
    ((nameTable.toComponent sampleEnv).MarshalJSON.member "config").bind
      (fun c => c.member "rows") = some .null ∧
    (∃ v', decode sampleEnv 1 (nameTable.toComponent sampleEnv).MarshalJSON = .ok v' ∧
      v'.String = (nameTable.toComponent sampleEnv).String ∧
      v'.GetMetadata.Typ = (nameTable.toComponent sampleEnv).GetMetadata.Typ) :=
  ⟨by decide, le_refl _, sampleTable_valid,
    (decode_marshal_round_trip sampleEnv (by decide) 3 3 (le_refl _)).1 _ sampleTable_valid,
    nameTable_valid, rfl,
    (decode_marshal_round_trip sampleEnv (by decide) 1 1 (le_refl _)).1 _ nameTable_valid⟩

end component
/-! ## The table constructors and mutators, the link projection -/

namespace component

/-- C11, as stated, fails: on a table holding one row `IsEmpty` returns false. -/
theorem isEmpty_false_on_one_row :
    oneRowTable.Config.Rows.length = 1 ∧ oneRowTable.IsEmpty = false :=
  ⟨rfl, rfl⟩

/-- C11, amended: for every table, `IsEmpty` returns false if there is one or
more rows in the table. -/
theorem isEmpty_false_of_rows (t : Table) (h : 1 ≤ t.Config.Rows.length) :
    t.IsEmpty = false := by
  simp only [Table.IsEmpty, decide_eq_false_iff_not]
  omega

/-- Witness for the amended C11: the table with one row. -/
theorem isEmpty_false_of_rows_witness :
    1 ≤ oneRowTable.Config.Rows.length ∧ oneRowTable.IsEmpty = false :=
  ⟨by decide, isEmpty_false_of_rows oneRowTable (by decide)⟩

/-- C12: for every title and column list (empty or not), `NewTable` has
exactly the given columns and `IsEmpty` is true on it; after a single
`Add(row)` `IsEmpty` is false. -/
theorem newTable_columns_and_emptiness (P : Env) (title : String) (cols : List TableCol)
    (row : TableRow) :
    (NewTable P title cols).Config.Columns = cols ∧
    (NewTable P title cols).IsEmpty = true ∧
    ((NewTable P title cols).Add [row]).IsEmpty = false :=
  ⟨rfl, rfl, rfl⟩

theorem modify_append_length (f : TableCol → TableCol) (done : List TableCol) (c : TableCol)
    (rest : List TableCol) :
    (done ++ c :: rest).modify f done.length = done ++ f c :: rest := by
  induction done with
  | nil => rfl
  | cons d ds ih => simp [ih]

theorem fill_spec : ∀ (keys : List String) (done : List TableCol),
    NewTableCols.fill keys done.length
        (done ++ List.replicate keys.length ({ Name := "", Accessor := "" } : TableCol)) =
      done ++ keys.map keyColumn
  | [], done => by simp [NewTableCols.fill]
  | k :: keys, done => by
    have ih := fill_spec keys (done ++ [keyColumn k])
    simp only [List.length_append, List.length_singleton, List.append_assoc,
      List.singleton_append] at ih
    simp only [NewTableCols.fill, List.length_cons, List.replicate_succ, modify_append_length,
      List.map_cons]
    exact ih

/-- C13: `NewTableCols(keys...)` is the list of the columns with
`Name = Accessor = key`, one per key in order: it has the length of `keys`,
its `i`-th column is built from `keys[i]`, and without keys it is empty. -/
theorem newTableCols_eq_map (keys : List String) :
    NewTableCols keys = keys.map keyColumn ∧
    (NewTableCols keys).length = keys.length ∧
    (∀ (i : Nat) (k : String), keys[i]? = some k →
      (NewTableCols keys)[i]? = some ({ Name := k, Accessor := k } : TableCol)) ∧
    NewTableCols [] = [] := by
  have h : NewTableCols keys = keys.map keyColumn := by
    unfold NewTableCols
    split
    · rename_i h0
      rw [List.length_eq_zero.1 h0]
      rfl
    · simpa using fill_spec keys []
  refine ⟨h, by rw [h, List.length_map], ?_, rfl⟩
  intro i k hk
  rw [h, List.getElem?_map, hk]
  rfl

/-- C14: after `t.AddColumn(name)` the columns are the previous columns
followed by one column with `Name = Accessor = name`, whether or not that
accessor was already present, and the rows (hence `IsEmpty`) and the rest of
the table are unchanged. -/
theorem addColumn_appends_column (t : Table) (name : String) :
    (t.AddColumn name).Config.Columns =
      t.Config.Columns ++ [{ Name := name, Accessor := name }] ∧
    (t.AddColumn name).Config.Rows = t.Config.Rows ∧
    (t.AddColumn name).IsEmpty = t.IsEmpty ∧
    (t.AddColumn name).Config.EmptyContent = t.Config.EmptyContent ∧
    (t.AddColumn name).Metadata = t.Metadata :=
  ⟨rfl, rfl, rfl, rfl, rfl⟩

/-- C15, as stated, fails: the table with the one column `name` has pairwise
distinct accessors, and after `AddColumn("name")` it has the accessor `name`
twice. -/
theorem addColumn_duplicates_accessor :
    nameTable.accessors.Nodup ∧
    (nameTable.AddColumn "name").accessors = ["name", "name"] ∧
    ¬ (nameTable.AddColumn "name").accessors.Nodup :=
  ⟨by decide, by decide, by decide⟩

/-- C15, amended: in a table whose column accessors are pairwise distinct,
`Add` leaves the accessors as they are, and after `AddColumn(name)` they are
pairwise distinct exactly when `name` was not an accessor of the table. -/
theorem accessors_distinct_after (t : Table) (h : t.accessors.Nodup) :
    (∀ rows, (t.Add rows).accessors = t.accessors ∧ (t.Add rows).accessors.Nodup) ∧
    (∀ name, (t.AddColumn name).accessors.Nodup ↔ name ∉ t.accessors) := by
  refine ⟨fun rows => ⟨rfl, h⟩, fun name => ?_⟩
  have e : (t.AddColumn name).accessors = t.accessors ++ [name] := by
    simp [Table.accessors, Table.AddColumn]
  rw [e, List.nodup_append]
  constructor
  · intro hnd hmem
    exact hnd.2.2 hmem (List.mem_singleton.2 rfl)
  · intro hnot
    refine ⟨h, List.nodup_singleton _, ?_⟩
    intro a ha hb
    rw [List.mem_singleton] at hb
    subst hb
    exact hnot ha

/-- Witness for the amended C15: the table with the one column `name`, to
which a column `age` can be added and a second column `name` cannot. -/
theorem accessors_distinct_after_witness :
    nameTable.accessors.Nodup ∧
    (nameTable.AddColumn "age").accessors.Nodup ∧
    ¬ (nameTable.AddColumn "name").accessors.Nodup :=
  ⟨by decide,
    ((accessors_distinct_after nameTable (by decide)).2 "age").2 (by decide),
    fun hnd => ((accessors_distinct_after nameTable (by decide)).2 "name").1 hnd (by decide)⟩

/-- C16: `NewTableWithRows(title, cols, rows)` is `NewTable(title, cols)`
followed by `Add(rows...)`; its columns are `cols` and its rows are exactly
`rows` in the given order. -/
theorem newTableWithRows_eq_add (P : Env) (title : String) (cols : List TableCol)
    (rows : List TableRow) :
    NewTableWithRows P title cols rows = (NewTable P title cols).Add rows ∧
    (NewTableWithRows P title cols rows).Config.Columns = cols ∧
    (NewTableWithRows P title cols rows).Config.Rows = rows :=
  ⟨rfl, rfl, rfl⟩

/-- C17: the `String()` of `NewLink(title, s, ref)` is `s`, whatever the
title and the reference are. -/
theorem newLink_string (P : Env) (title s ref : String) :
    (NewLink P title s ref).String = s ∧
    ∀ title₂ ref₂, (NewLink P title₂ s ref₂).String = (NewLink P title s ref).String :=
  ⟨rfl, fun _ _ => rfl⟩

/-- C18: whenever `Sort(name)` returns, the error it returns is nil. -/
theorem sort_error_nil (t : TableRows) (name : String) (t' : TableRows) (err : Option String)
    (h : TableRows.Sort t name = .ok (t', err)) : err = none := by
  unfold TableRows.Sort at h
  cases hs : sort.Slice (TableRows.less name) t with
  | error e =>
    rw [hs] at h
    cases h
  | ok out =>
    rw [hs] at h
    cases h
    rfl

/-- Witness for C18: the sort of the rows named `Bob`, `Alice` returns. -/
theorem sort_error_nil_witness :
    TableRows.Sort bobAlice "name" =
      .ok ([[("name", sampleLink "Alice")], [("name", sampleLink "Bob")]], none) ∧
    (none : Option String) = none :=
  ⟨rfl, sort_error_nil bobAlice "name" _ none rfl⟩

/-- C19: for every row sequence in which every row has a cell at `name`,
`Sort(name)` returns and only reorders: the rows after the sort are a
permutation of the rows before it, each row with the cells it had, and there
are as many of them. -/
theorem sort_permutes_rows (t : TableRows) (name : String)
    (h : ∀ row ∈ t, (row.index name).isSome = true) :
    ∃ t', TableRows.Sort t name = .ok (t', none) ∧ t'.Perm t ∧ t'.length = t.length ∧
      ∀ row, row ∈ t' ↔ row ∈ t := by
  obtain ⟨out, e, hp, _⟩ := sort.Slice_spec (cellString name) (less_agrees name t h)
  exact ⟨out, by simp [TableRows.Sort, e], hp, hp.length_eq, fun row => hp.mem_iff⟩

/-- Witness for C19: the thirteen rows of `tieRows`. -/
theorem sort_permutes_rows_witness :
    (∀ row ∈ tieRows, (row.index "name").isSome = true) ∧
    ∃ t', TableRows.Sort tieRows "name" = .ok (t', none) ∧ t'.Perm tieRows ∧
      t'.length = tieRows.length ∧ ∀ row, row ∈ t' ↔ row ∈ tieRows :=
  ⟨by decide, sort_permutes_rows tieRows "name" (by decide)⟩

/-- C20: `Link.MarshalJSON` and `Table.MarshalJSON` leave the struct their
receiver points to exactly as it was, tampered type tag included: the tag is
overwritten in the local copy only, from which the output is produced. -/
theorem marshalJSON_keeps_receiver (P : Env) (l : Link) (t : Table) :
    (Link.MarshalJSON.run P l).1 = l ∧
    (Link.MarshalJSON.run P l).2 = l.MarshalJSON P ∧
    (Table.MarshalJSON.run P t).1 = t ∧
    (Table.MarshalJSON.run P t).2 = t.MarshalJSON P :=
  ⟨rfl, rfl, rfl, rfl⟩

end component
